import Mathlib

/-
  Verification of the N-ary tree container in `src/Tree.h` of the
  Text_Adventure repository, a shallow embedding in Lean 4.

  The C++ `Node<T>` holds a value, an integer ID and an owned, ordered
  vector of children (the parent back-pointer is only used to detach a
  node on removal, so the node graph is exactly a finite rose tree).
  `Tree<T>` owns the optional root, keeps `nodeMap` (an id-keyed index
  of the live nodes) and a monotone `nextID` counter.  Machine ints are
  modelled by `Int` (overflow is ignored by the source), strings by
  `List Char`.
-/

namespace TextAdventure

/-- Characters of a C++ `std::string` line. -/
abbrev Str := List Char

/-- The error taxonomy of `Tree.h` (`std::logic_error` / `std::invalid_argument`
with distinguishing messages). -/
inductive TreeError where
  | AlreadyHasRoot
  | NodeNotFound
  | CannotRemoveRoot
  | MalformedLine
  | UnparsablePayload
  | UnbalancedMarkers
  | IncompatiblePayloadType
deriving DecidableEq, Repr

/-- `Node<T>`: value, ID and owned children, from `src/Tree.h` lines 124-147.
The parent pointer is represented implicitly by the tree structure. -/
inductive TNode (α : Type) where
  | mk (value : α) (ID : Int) (children : List (TNode α))
deriving Repr

namespace TNode

def value : TNode α → α
  | .mk v _ _ => v

def ID : TNode α → Int
  | .mk _ i _ => i

def children : TNode α → List (TNode α)
  | .mk _ _ cs => cs

/-- The same node with one more child at the end of its children vector. -/
def appendKid : TNode α → TNode α → TNode α
  | .mk v i cs, c => .mk v i (cs ++ [c])

end TNode

/-- The capabilities `Tree<T>` demands of its payload type `T`:
`operator<<` (encode to one line), `operator>>` (decode; a failed
extraction is `none`), a default constructor and `operator==`. -/
structure PayloadIface (α : Type) where
  enc : α → Str
  dec : Str → Option α
  defaultVal : α
  eqb : α → α → Bool

/-- `Tree<T>`: owned root, id index and id counter, `src/Tree.h` lines 174-177.
`nodeMap` is modelled by its key set (insertion-ordered list of ids);
a key dereferences to the reachable node bearing that id, which is what the
stored pointer targets in every state reachable through the public API. -/
structure Tree (α : Type) where
  root : Option (TNode α)
  nodeMap : List Int
  nextID : Int
deriving Repr

mutual

/-- Number of nodes of a subtree. -/
def sizeN : TNode α → Nat
  | .mk _ _ cs => 1 + sizeF cs

/-- Number of nodes of a forest. -/
def sizeF : List (TNode α) → Nat
  | [] => 0
  | n :: ns => sizeN n + sizeF ns

end

mutual

/-- Pre-order list of the ids of a subtree. -/
def collectIds : TNode α → List Int
  | .mk _ i cs => i :: collectIdsF cs

/-- Pre-order list of the ids of a forest. -/
def collectIdsF : List (TNode α) → List Int
  | [] => []
  | n :: ns => collectIds n ++ collectIdsF ns

end

mutual

/-- Dereference an id: the first node in pre-order carrying it
(the pointer target of `nodeMap[id]` in API-reachable states). -/
def findNode (nid : Int) : TNode α → Option (TNode α)
  | .mk v i cs => if i = nid then some (.mk v i cs) else findForest nid cs

def findForest (nid : Int) : List (TNode α) → Option (TNode α)
  | [] => none
  | n :: ns =>
    match findNode nid n with
    | some m => some m
    | none => findForest nid ns

end

mutual

/-- Write through the pointer `nodeMap[pid]`: push `c` at the end of the
children vector of the node carrying id `pid` (`parentNode->children.push_back`
in `appendNode`, `src/Tree.h` line 423).  The `Bool` records whether the
pointer target was reached; in API-reachable states the carrier is unique. -/
def insertChildAt (pid : Int) (c : TNode α) : TNode α → TNode α × Bool
  | .mk v i cs =>
    if i = pid then (.mk v i (cs ++ [c]), true)
    else
      let r := insertChildForest pid c cs
      (.mk v i r.1, r.2)

def insertChildForest (pid : Int) (c : TNode α) : List (TNode α) → List (TNode α) × Bool
  | [] => ([], false)
  | n :: ns =>
    let r := insertChildAt pid c n
    if r.2 then (r.1 :: ns, true)
    else
      let rs := insertChildForest pid c ns
      (n :: rs.1, rs.2)

end

mutual

/-- Detach the node carrying id `nid` from its parent's children vector
(`siblings.erase(remove_if ...)` with pointer identity, `src/Tree.h`
lines 464-470); the subtree it owns disappears with it. -/
def removeChildNode (nid : Int) : TNode α → TNode α × Bool
  | .mk v i cs =>
    let r := removeChildForest nid cs
    (.mk v i r.1, r.2)

def removeChildForest (nid : Int) : List (TNode α) → List (TNode α) × Bool
  | [] => ([], false)
  | n :: ns =>
    if n.ID = nid then (ns, true)
    else
      let r := removeChildNode nid n
      if r.2 then (r.1 :: ns, true)
      else
        let rs := removeChildForest nid ns
        (n :: rs.1, rs.2)

end

mutual

/-- `Tree::assignIDs`, `src/Tree.h` lines 189-199: give every node of the
subtree the next fresh id (`node->ID = nextID++`), register it in the index
(`nodeMap[node->ID] = node`), then recurse into the children.
State threaded: the subtree being relabelled, `nextID` and the key set. -/
def assignIDs : TNode α → Int → List Int → TNode α × Int × List Int
  | .mk v _ cs, nid, m =>
    let m1 := if m.contains nid then m else m ++ [nid]
    let r := assignForest cs (nid + 1) m1
    (.mk v nid r.1, r.2.1, r.2.2)

def assignForest : List (TNode α) → Int → List Int → List (TNode α) × Int × List Int
  | [], nid, m => ([], nid, m)
  | c :: cs, nid, m =>
    let r := assignIDs c nid m
    let rs := assignForest cs r.2.1 r.2.2
    (r.1 :: rs.1, rs.2.1, rs.2.2)

end

mutual

/-- Pure id relabelling in pre-order starting at `k` (what `assignIDs`
does to the ids alone); returns the relabelled subtree and the next counter. -/
def relabelT : TNode α → Int → TNode α × Int
  | .mk v _ cs, k =>
    let r := relabelF cs (k + 1)
    (.mk v k r.1, r.2)

def relabelF : List (TNode α) → Int → List (TNode α) × Int
  | [], k => ([], k)
  | n :: ns, k =>
    let r := relabelT n k
    let rs := relabelF ns r.2
    (r.1 :: rs.1, rs.2)

end

mutual

/-- Pre-order sequence of payload values of a subtree. -/
def preorderValues : TNode α → List α
  | .mk v _ cs => v :: preorderValuesF cs

def preorderValuesF : List (TNode α) → List α
  | [] => []
  | n :: ns => preorderValues n ++ preorderValuesF ns

end

mutual

/-- Pre-order sequence of children counts of a subtree (its shape). -/
def preorderKidCounts : TNode α → List Nat
  | .mk _ _ cs => cs.length :: preorderKidCountsF cs

def preorderKidCountsF : List (TNode α) → List Nat
  | [] => []
  | n :: ns => preorderKidCounts n ++ preorderKidCountsF ns

end

mutual

/-- Compositional form of the linearization, `src/Tree.h` lines 222-251:
one value entry per node, the node's end-of-children marker (`none`) after
every entry of its descendants and before anything of its later siblings. -/
def linTree : TNode α → List (Option α)
  | .mk v _ cs => some v :: (linForest cs ++ [none])

def linForest : List (TNode α) → List (Option α)
  | [] => []
  | n :: ns => linTree n ++ linForest ns

end

/-- `[k, k+1, ..., k+n-1]` as ids. -/
def idRange (k : Int) : Nat → List Int
  | 0 => []
  | n + 1 => k :: idRange (k + 1) n

/-- Iterated child insertion under the same parent id (the cumulative effect
of consecutive `appendNode` calls with one parent). -/
def insertChildrenAt (pid : Int) (cs : List (TNode α)) (r : TNode α) : TNode α :=
  cs.foldl (fun acc c => (insertChildAt pid c acc).1) r

namespace Tree

/-- The state of a freshly constructed `Tree<T>` (no root, empty index,
counter at zero). -/
def empty : Tree α := ⟨none, [], 0⟩

/-- `Tree::getRootID`, `src/Tree.h` lines 482-484. -/
def getRootID (t : Tree α) : Int :=
  match t.root with
  | some r => r.ID
  | none => -1

/-- `Tree::setRoot`, `src/Tree.h` lines 389-398. -/
def setRoot (t : Tree α) (v : α) : Except TreeError (Int × Tree α) :=
  match t.root with
  | some _ => .error .AlreadyHasRoot
  | none =>
    let r := assignIDs (.mk v 0 []) t.nextID t.nodeMap
    .ok (r.1.ID, ⟨some r.1, r.2.2, r.2.1⟩)

/-- `Tree::appendNode`, `src/Tree.h` lines 412-427: look the parent up in
`nodeMap` (else `NodeNotFound`), push a fresh node at the end of its children,
run `assignIDs` on it, return the new id. -/
def appendNode (t : Tree α) (parentID : Int) (v : α) : Except TreeError (Int × Tree α) :=
  if t.nodeMap.contains parentID then
    let r := assignIDs (TNode.mk v 0 []) t.nextID t.nodeMap
    let root' := t.root.map (fun rt => (insertChildAt parentID r.1 rt).1)
    .ok (r.1.ID, ⟨root', r.2.2, r.2.1⟩)
  else .error .NodeNotFound

/-- `Tree::removeNode`, `src/Tree.h` lines 438-472: refuse the root first,
then look the id up in `nodeMap` (else `NodeNotFound`), erase the ids of the
whole subtree from the index (`cleanupSubtree`) and detach the node from its
parent's children vector. -/
def removeNode (t : Tree α) (nodeID : Int) : Except TreeError (Tree α) :=
  if nodeID = t.getRootID then .error .CannotRemoveRoot
  else if t.nodeMap.contains nodeID then
    let sub := ((t.root.bind (findNode nodeID)).map collectIds).getD []
    let root' := t.root.map (fun rt => (removeChildNode nodeID rt).1)
    .ok ⟨root', t.nodeMap.filter (fun k => !(sub.contains k)), t.nextID⟩
  else .error .NodeNotFound

/-- `Tree::getChildrenIDs`, `src/Tree.h` lines 496-510. -/
def getChildrenIDs (t : Tree α) (nodeID : Int) : Except TreeError (List Int) :=
  if t.nodeMap.contains nodeID then
    match t.root.bind (findNode nodeID) with
    | some n => .ok (n.children.map TNode.ID)
    | none => .error .NodeNotFound
  else .error .NodeNotFound

/-- `Tree::getValue`, `src/Tree.h` lines 521-530. -/
def getValue (t : Tree α) (nodeID : Int) : Except TreeError α :=
  if t.nodeMap.contains nodeID then
    match t.root.bind (findNode nodeID) with
    | some n => .ok n.value
    | none => .error .NodeNotFound
  else .error .NodeNotFound

/-- `Tree::operator[]`, `src/Tree.h` lines 542-551 (the source repeats the
body of `getValue` verbatim). -/
def subscript (t : Tree α) (nodeID : Int) : Except TreeError α :=
  if t.nodeMap.contains nodeID then
    match t.root.bind (findNode nodeID) with
    | some n => .ok n.value
    | none => .error .NodeNotFound
  else .error .NodeNotFound

end Tree

/-- `Tree::T_compatible_check`, `src/Tree.h` lines 312-336: encode a
default-constructed `T`, extract it back into a second default-constructed
instance (a failed `operator>>` leaves that instance untouched — the source
does not test the stream state here), and compare with `operator==`. -/
def T_compatible_check (P : PayloadIface α) : Bool :=
  let testT := P.defaultVal
  let s := P.enc testT
  let testT2 := (P.dec s).getD P.defaultVal
  P.eqb testT testT2

/-- The default constructor `Tree::Tree()`, `src/Tree.h` lines 346-349:
run the payload round-trip check, else start with no root. -/
def Tree.mkNew (P : PayloadIface α) : Except TreeError (Tree α) :=
  if T_compatible_check P then .ok Tree.empty else .error .IncompatiblePayloadType

/-- The value constructors `Tree::Tree(const T&)` / `Tree::Tree(T&&)`,
`src/Tree.h` lines 359-375: the round-trip check, then `setRoot(value)`
(copying and moving coincide in a pure model). -/
def Tree.mkWithValue (P : PayloadIface α) (v : α) : Except TreeError (Tree α) :=
  if T_compatible_check P then
    match Tree.empty.setRoot v with
    | .ok r => .ok r.2
    | .error e => .error e
  else .error .IncompatiblePayloadType


/-- Termination measure for the linearization loop: weight of the explicit
stack (a `nullptr` entry weighs 1, a node entry weighs 3 per node it owns). -/
def stackWeight : List (Option (TNode α)) → Nat
  | [] => 0
  | none :: l => 1 + stackWeight l
  | some n :: l => 3 * sizeN n + stackWeight l

/-- The explicit-stack loop of `Tree::linearize`, `src/Tree.h` lines 222-251:
pop the top; a real node emits its value, pushes its own end-of-children
marker (`nullptr`) and then its children in reverse order, so that the
leftmost child is popped first; a marker emits `none`.  The stack is the
list with its head on top: pushing children in reverse order then reading
top-down is the same as prepending `children.map some` in order. -/
def linearizeStack : List (Option (TNode α)) → List (Option α)
  | [] => []
  | none :: rest => none :: linearizeStack rest
  | some n :: rest =>
    some n.value :: linearizeStack (n.children.map some ++ (none :: rest))
termination_by l => stackWeight l
decreasing_by
  · simp [stackWeight]
  · have key : ∀ (cs : List (TNode α)) (l : List (Option (TNode α))),
        stackWeight (cs.map some ++ l) = 3 * sizeF cs + stackWeight l := by
      intro cs
      induction cs with
      | nil => intro l; simp [stackWeight, sizeF]
      | cons c cs ih => intro l; simp [stackWeight, sizeF, ih]; ring
    obtain ⟨v, i, cs⟩ := n
    simp [key, stackWeight, TNode.children, sizeN]
    omega

/-- `Tree::linearize` on the tree: push the root, if any, and run the loop. -/
def Tree.linearize (t : Tree α) : List (Option α) :=
  linearizeStack (match t.root with | some r => [some r] | none => [])

/-- Decimal digit characters, as `operator<<` prints an `int`. -/
def digitChar (d : Nat) : Char :=
  match d with
  | 0 => '0' | 1 => '1' | 2 => '2' | 3 => '3' | 4 => '4'
  | 5 => '5' | 6 => '6' | 7 => '7' | 8 => '8' | _ => '9'

/-- One division step per unit of fuel; the fuel `n` always suffices since the
number of decimal digits of `n` is at most `n + 1`. -/
def natDigitsGo : Nat → Nat → List Char
  | 0, n => [digitChar n]
  | fuel + 1, n =>
    if n < 10 then [digitChar n]
    else natDigitsGo fuel (n / 10) ++ [digitChar (n % 10)]

/-- Decimal rendering of a `Nat` (the non-negative `nodeCount` counter),
as `operator<<` prints it. -/
def natDigits (n : Nat) : List Char := natDigitsGo n n

/-- The value line `[<count>]: <encoding>` emitted by `Tree::serialize`. -/
def valueLine (k : Nat) (payload : Str) : Str :=
  '[' :: (natDigits k ++ (']' :: ':' :: ' ' :: payload))

/-- The end-of-children marker line `[X]`. -/
def eocLine : Str := ['[', 'X', ']']

/-- The line-emitting loop of `Tree::serialize`, `src/Tree.h` lines 564-585:
one line per linearized entry, value entries numbered by a running counter
(`nodeCount++`) over value entries only, markers rendered as `[X]`. -/
def serializeLines (enc : α → Str) : List (Option α) → Nat → List Str
  | [], _ => []
  | some v :: rest, k => valueLine k (enc v) :: serializeLines enc rest (k + 1)
  | none :: rest, k => eocLine :: serializeLines enc rest k

/-- Each emitted line is terminated by `"\n"` and appended to the output. -/
def joinLines : List Str → Str
  | [] => []
  | l :: ls => l ++ '\n' :: joinLines ls

/-- `Tree::serialize`, `src/Tree.h` lines 564-585. -/
def Tree.serialize (P : PayloadIface α) (t : Tree α) : Str :=
  joinLines (serializeLines P.enc t.linearize 0)

/-- `std::getline` splitting: segments between `'\n'` characters; a trailing
unterminated segment is still delivered, a terminating final newline is not
followed by an empty line. -/
def splitLines : Str → List Str
  | [] => []
  | c :: rest =>
    if c = '\n' then [] :: splitLines rest
    else
      match splitLines rest with
      | [] => [[c]]
      | l :: ls => (c :: l) :: ls

/-- The suffix of `s` after the first occurrence of `pat`
(`line.substr(line.find(pat) + pat.size())`), or `none` if `pat` does not
occur (`find == npos`). -/
def dropThroughSub (pat : Str) : Str → Option Str
  | [] => if pat.isPrefixOf [] then some (([] : Str).drop pat.length) else none
  | c :: rest =>
    if pat.isPrefixOf (c :: rest) then some ((c :: rest).drop pat.length)
    else dropThroughSub pat rest

/-- The end-of-children test of the parser: `line == "[X]"`. -/
def isEOCLine (l : Str) : Bool := l = eocLine

/-- The value-line shape test of the parser:
`line.find("[") == 0 && line.find("]: ") != npos`. -/
def isValueShape (l : Str) : Bool :=
  l.head? = some '[' ∧ (dropThroughSub (']' :: ':' :: [' ']) l).isSome

/-- The parsing loop of `Tree::deserialize`, `src/Tree.h` lines 607-656,
including the final marker/value count comparison.  It yields the diagnostic
raised by the first failing line (`none` if the document is valid) together
with the `linearized` vector accumulated up to that point — the surrounding
`catch` block (lines 657-659) only logs the diagnostic, so the partial vector
is what flows on into `delinearize` either way. -/
def parseLines (dec : Str → Option α) :
    List Str → List (Option α) → Nat → Nat → Option TreeError × List (Option α)
  | [], acc, nodeCount, eocTokenCount =>
    (if nodeCount ≠ eocTokenCount then some .UnbalancedMarkers else none, acc)
  | line :: rest, acc, nodeCount, eocTokenCount =>
    if isEOCLine line then
      let acc := acc ++ [none]
      if eocTokenCount + 1 > nodeCount then (some .UnbalancedMarkers, acc)
      else parseLines dec rest acc nodeCount (eocTokenCount + 1)
    else if isValueShape line then
      match dropThroughSub (']' :: ':' :: [' ']) line with
      | some valuePart =>
        match dec valuePart with
        | some v => parseLines dec rest (acc ++ [some v]) (nodeCount + 1) eocTokenCount
        | none => (some .UnparsablePayload, acc)
      | none => (some .MalformedLine, acc)
    else (some .MalformedLine, acc)

/-- The loop body of `Tree::delinearize`, `src/Tree.h` lines 274-298:
a value with no root yet becomes the root; a value with a root is appended
under the id on top of the parent stack; a marker pops the stack when it is
non-empty.  `stk.headD (-1)` renders `parentIDs.top()`; on an empty stack
that call is undefined behaviour in the source and the model determinizes it
to the invalid id `-1` (so the `appendNode` inside raises `NodeNotFound`,
which would propagate out of `deserialize`). -/
def delinGo : List (Option α) → Tree α → List Int → Except TreeError (Tree α)
  | [], t, _ => .ok t
  | some v :: rest, t, stk =>
    if t.getRootID = -1 then
      match t.setRoot v with
      | .ok r => delinGo rest r.2 (r.2.getRootID :: stk)
      | .error e => .error e
    else
      match t.appendNode (stk.headD (-1)) v with
      | .ok r => delinGo rest r.2 (r.1 :: stk)
      | .error e => .error e
  | none :: rest, t, stk =>
    if stk.isEmpty then delinGo rest t stk else delinGo rest t stk.tail

/-- `Tree::delinearize`, `src/Tree.h` lines 274-298.  The local
`Tree<T> tree;` runs the payload compatibility check of the default
constructor before the loop starts. -/
def delinearize (P : PayloadIface α) (lin : List (Option α)) : Except TreeError (Tree α) :=
  match Tree.mkNew P with
  | .ok t0 => delinGo lin t0 []
  | .error e => .error e

/-- `Tree::deserialize`, `src/Tree.h` lines 598-662: parse line by line
inside a `try` block whose `catch` only prints the diagnostic to `cerr`,
then always hand the accumulated vector to `delinearize`.  The first
component is the logged diagnostic (`none` when parsing succeeded); the
second is what the caller receives. -/
def deserialize (P : PayloadIface α) (s : Str) :
    Option TreeError × Except TreeError (Tree α) :=
  let pr := parseLines P.dec (splitLines s) [] 0 0
  (pr.1, delinearize P pr.2)

/-- The three mutating operations of the public API. -/
inductive TreeOp (α : Type) where
  | setRootOp (v : α)
  | appendChildOp (pid : Int) (v : α)
  | removeSubtreeOp (nid : Int)

/-- Run one operation; a raised error leaves the caller's tree unchanged
(the source throws before any mutation in every failing branch). -/
def applyOp (t : Tree α) : TreeOp α → Tree α
  | .setRootOp v =>
    match t.setRoot v with
    | .ok r => r.2
    | .error _ => t
  | .appendChildOp pid v =>
    match t.appendNode pid v with
    | .ok r => r.2
    | .error _ => t
  | .removeSubtreeOp nid =>
    match t.removeNode nid with
    | .ok t' => t'
    | .error _ => t

/-- Run a sequence of operations from a given state. -/
def applyOps (t : Tree α) (ops : List (TreeOp α)) : Tree α :=
  ops.foldl applyOp t

/-- The index/structure invariant of §3 of the design: the key set of
`nodeMap` is exactly the pre-order id sequence of the reachable nodes
(so each key dereferences to its own node), ids are pairwise distinct,
and every live id is a past value of the `nextID` counter. -/
def TreeInv (t : Tree α) : Prop :=
  match t.root with
  | none => t.nodeMap = [] ∧ 0 ≤ t.nextID
  | some r =>
    t.nodeMap.Perm (collectIds r) ∧ (collectIds r).Nodup ∧
      ∀ i ∈ collectIds r, 0 ≤ i ∧ i < t.nextID

instance instDecTreeInv (t : Tree α) : Decidable (TreeInv t) :=
  match h : t.root with
  | none => decidable_of_iff (t.nodeMap = [] ∧ 0 ≤ t.nextID) (by simp [TreeInv, h])
  | some r => decidable_of_iff
      (t.nodeMap.Perm (collectIds r) ∧ (collectIds r).Nodup ∧
        ∀ i ∈ collectIds r, 0 ≤ i ∧ i < t.nextID) (by simp [TreeInv, h])

/-! ### Concrete payload interfaces and the scenario data of the design notes -/

/-- The `std::string` payload: `operator<<` writes the characters verbatim and
the `std::string` branch of the parser (`src/Tree.h` lines 640-644) takes the
rest of the line verbatim, so both directions are the identity. -/
def strPayload : PayloadIface Str where
  enc s := s
  dec s := some s
  defaultVal := []
  eqb a b := a == b

/-- A boolean payload written as the single letter `t` or `f`; extraction
inverts insertion on every value and no encoding contains a newline. -/
def boolPayload : PayloadIface Bool where
  enc b := if b then ['t'] else ['f']
  dec s := if s = ['t'] then some true else if s = ['f'] then some false else none
  defaultVal := false
  eqb a b := a == b

/-- A payload whose extraction loses information (every parse yields `true`),
so the round-trip check on the default value `false` fails. -/
def badPayload : PayloadIface Bool where
  enc b := if b then ['t'] else ['f']
  dec _ := some true
  defaultVal := false
  eqb a b := a == b

/-- The operation script of the 3-level scenario: root `A`, children `B`,
`C`, `D` under the root, children `E`, `F` under `B`. -/
def exampleOps : List (TreeOp Str) :=
  [.setRootOp ['A'], .appendChildOp 0 ['B'], .appendChildOp 0 ['C'],
    .appendChildOp 0 ['D'], .appendChildOp 1 ['E'], .appendChildOp 1 ['F']]

/-- The tree the scenario script builds. -/
def exampleTree : Tree Str := applyOps Tree.empty exampleOps

/-- The root node of `exampleTree`, written out literally. -/
def exampleRoot : TNode Str :=
  .mk ['A'] 0 [.mk ['B'] 1 [.mk ['E'] 4 [], .mk ['F'] 5 []],
    .mk ['C'] 2 [], .mk ['D'] 3 []]

/-- The document of the unbalanced-marker scenario, the text
`[0]: A\n[X]\n[X]\n` as a character list. -/
def exampleDoc : Str :=
  ['[', '0', ']', ':', ' ', 'A', '\n', '[', 'X', ']', '\n', '[', 'X', ']', '\n']

/-- A boolean operation script whose insertion order differs from pre-order:
it allocates ids 0,1,2,3 but the pre-order id sequence is 0,1,3,2, so the
round trip visibly reassigns ids. -/
def boolOps : List (TreeOp Bool) :=
  [.setRootOp true, .appendChildOp 0 false, .appendChildOp 0 true,
    .appendChildOp 1 true]

/-- The root that `boolOps` builds. -/
def boolOpsRoot : TNode Bool :=
  .mk true 0 [.mk false 1 [.mk true 3 []], .mk true 2 []]

/-! ### Unfolding lemmas for the mutually recursive definitions -/

@[simp] theorem TNode.value_mk (v : α) (i : Int) (cs : List (TNode α)) :
    (TNode.mk v i cs).value = v := rfl

@[simp] theorem TNode.ID_mk (v : α) (i : Int) (cs : List (TNode α)) :
    (TNode.mk v i cs).ID = i := rfl

@[simp] theorem TNode.children_mk (v : α) (i : Int) (cs : List (TNode α)) :
    (TNode.mk v i cs).children = cs := rfl

@[simp] theorem sizeN_mk (v : α) (i : Int) (cs : List (TNode α)) :
    sizeN (TNode.mk v i cs) = 1 + sizeF cs := by
  simp [sizeN]

@[simp] theorem sizeF_nil : sizeF ([] : List (TNode α)) = 0 := by
  simp [sizeF]

@[simp] theorem sizeF_cons (n : TNode α) (ns : List (TNode α)) :
    sizeF (n :: ns) = sizeN n + sizeF ns := by
  simp [sizeF]

@[simp] theorem collectIds_mk (v : α) (i : Int) (cs : List (TNode α)) :
    collectIds (TNode.mk v i cs) = i :: collectIdsF cs := by
  simp [collectIds]

@[simp] theorem collectIdsF_nil : collectIdsF ([] : List (TNode α)) = [] := by
  simp [collectIdsF]

@[simp] theorem collectIdsF_cons (n : TNode α) (ns : List (TNode α)) :
    collectIdsF (n :: ns) = collectIds n ++ collectIdsF ns := by
  simp [collectIdsF]

@[simp] theorem preorderValues_mk (v : α) (i : Int) (cs : List (TNode α)) :
    preorderValues (TNode.mk v i cs) = v :: preorderValuesF cs := by
  simp [preorderValues]

@[simp] theorem preorderValuesF_nil : preorderValuesF ([] : List (TNode α)) = [] := by
  simp [preorderValuesF]

@[simp] theorem preorderValuesF_cons (n : TNode α) (ns : List (TNode α)) :
    preorderValuesF (n :: ns) = preorderValues n ++ preorderValuesF ns := by
  simp [preorderValuesF]

@[simp] theorem preorderKidCounts_mk (v : α) (i : Int) (cs : List (TNode α)) :
    preorderKidCounts (TNode.mk v i cs) = cs.length :: preorderKidCountsF cs := by
  simp [preorderKidCounts]

@[simp] theorem preorderKidCountsF_nil :
    preorderKidCountsF ([] : List (TNode α)) = [] := by
  simp [preorderKidCountsF]

@[simp] theorem preorderKidCountsF_cons (n : TNode α) (ns : List (TNode α)) :
    preorderKidCountsF (n :: ns) = preorderKidCounts n ++ preorderKidCountsF ns := by
  simp [preorderKidCountsF]

@[simp] theorem linTree_mk (v : α) (i : Int) (cs : List (TNode α)) :
    linTree (TNode.mk v i cs) = some v :: (linForest cs ++ [none]) := by
  simp [linTree]

@[simp] theorem linForest_nil : linForest ([] : List (TNode α)) = [] := by
  simp [linForest]

@[simp] theorem linForest_cons (n : TNode α) (ns : List (TNode α)) :
    linForest (n :: ns) = linTree n ++ linForest ns := by
  simp [linForest]

theorem sizeN_pos (n : TNode α) : 0 < sizeN n := by
  obtain ⟨v, i, cs⟩ := n
  simp

/-! ### The stack loop of `linearize` computes the compositional pre-order form -/

mutual

theorem linearizeStack_cons_some (n : TNode α) (l : List (Option (TNode α))) :
    linearizeStack (some n :: l) = linTree n ++ linearizeStack l := by
  obtain ⟨v, i, cs⟩ := n
  rw [linearizeStack]
  simp only [TNode.value_mk, TNode.children_mk]
  rw [linearizeStack_append_map cs (none :: l)]
  simp [linearizeStack]

theorem linearizeStack_append_map (cs : List (TNode α)) (l : List (Option (TNode α))) :
    linearizeStack (cs.map some ++ l) = linForest cs ++ linearizeStack l := by
  match cs with
  | [] => simp
  | c :: cs' =>
    simp only [List.map_cons, List.cons_append, linForest_cons, List.append_assoc]
    rw [linearizeStack_cons_some c (cs'.map some ++ l)]
    rw [linearizeStack_append_map cs' l]

end

/-- On a rooted tree the stack loop emits exactly the compositional form. -/
theorem Tree.linearize_of_root (t : Tree α) (r : TNode α) (h : t.root = some r) :
    t.linearize = linTree r := by
  unfold Tree.linearize
  rw [h, linearizeStack_cons_some]
  simp [linearizeStack]

/-- An empty tree linearizes to the empty sequence. -/
theorem Tree.linearize_of_empty (t : Tree α) (h : t.root = none) :
    t.linearize = [] := by
  unfold Tree.linearize
  rw [h]
  simp [linearizeStack]

/-! ### Counting lemmas: one value and one marker per node -/

mutual

theorem linTree_counts (n : TNode α) :
    (linTree n).countP (fun x => x.isSome) = sizeN n ∧
      (linTree n).countP (fun x => x.isNone) = sizeN n ∧
      (linTree n).length = 2 * sizeN n := by
  obtain ⟨v, i, cs⟩ := n
  have ih := linForest_counts cs
  simp [List.countP_append, List.countP_cons, ih.1, ih.2.1, ih.2.2]
  omega

theorem linForest_counts (ns : List (TNode α)) :
    (linForest ns).countP (fun x => x.isSome) = sizeF ns ∧
      (linForest ns).countP (fun x => x.isNone) = sizeF ns ∧
      (linForest ns).length = 2 * sizeF ns := by
  match ns with
  | [] => simp
  | n :: ns' =>
    have ih1 := linTree_counts n
    have ih2 := linForest_counts ns'
    simp [List.countP_append, ih1.1, ih1.2.1, ih1.2.2, ih2.1, ih2.2.1, ih2.2.2]
    omega

end

/-! ### Prefix balance: markers never outnumber values in the pre-order form -/

mutual

theorem linTree_balance (n : TNode α) :
    ∀ l1 l2 : List (Option α), linTree n = l1 ++ l2 →
      l1.countP (fun x => x.isNone) ≤ l1.countP (fun x => x.isSome) := by
  obtain ⟨v, i, cs⟩ := n
  intro l1 l2 h
  simp only [linTree_mk] at h
  match l1 with
  | [] => simp
  | x :: l1' =>
    simp only [List.cons_append, List.cons.injEq] at h
    obtain ⟨hx, hsplit⟩ := h
    rcases List.append_eq_append_iff.mp hsplit with ⟨a', ha1, ha2⟩ | ⟨c', hc1, hc2⟩
    · -- l1' runs past the whole children forest into the trailing marker
      have hforest := linForest_counts (α := α) cs
      rcases a' with _ | ⟨y, a''⟩
      · simp only [List.append_nil] at ha1
        simp [ha1, List.countP_cons, hx.symm, List.countP_append,
          hforest.1, hforest.2.1]
      · rcases a'' with _ | ⟨w, ws⟩
        · rcases l2 with _ | ⟨z, zs⟩
          · simp only [List.nil_append, List.append_nil] at ha2
            have hy : y = none := by simpa using ha2.symm
            simp [ha1, hy, List.countP_cons, hx.symm, List.countP_append,
              hforest.1, hforest.2.1]
          · exfalso; simp at ha2
        · exfalso; simp at ha2
    · -- l1' is a piece of the children forest
      have := linForest_balance cs l1' c' hc1
      simp [List.countP_cons, hx.symm]
      omega

theorem linForest_balance (ns : List (TNode α)) :
    ∀ l1 l2 : List (Option α), linForest ns = l1 ++ l2 →
      l1.countP (fun x => x.isNone) ≤ l1.countP (fun x => x.isSome) := by
  match ns with
  | [] =>
    intro l1 l2 h
    simp only [linForest_nil] at h
    have : l1 = [] := by
      cases l1 with
      | nil => rfl
      | cons a as => simp at h
    simp [this]
  | c :: cs' =>
    intro l1 l2 h
    simp only [linForest_cons] at h
    rcases List.append_eq_append_iff.mp h.symm with ⟨a', ha1, ha2⟩ | ⟨c'', hc1, hc2⟩
    · -- l1 ends inside the head tree
      exact linTree_balance c l1 a' ha1
    · -- l1 covers the head tree and a piece of the remaining forest
      have htree := linTree_counts (α := α) c
      have := linForest_balance cs' c'' l2 hc2
      simp [hc1, List.countP_append, htree.1, htree.2.1]
      omega

end

/-! ### The text of a value line: shape and payload recovery -/

theorem digitChar_facts (d : Nat) : digitChar d ≠ ']' ∧ digitChar d ≠ '\n' := by
  unfold digitChar
  split <;> exact ⟨by decide, by decide⟩

theorem natDigitsGo_facts (fuel n : Nat) :
    natDigitsGo fuel n ≠ [] ∧ ∀ c ∈ natDigitsGo fuel n, c ≠ ']' ∧ c ≠ '\n' := by
  induction fuel generalizing n with
  | zero => simpa [natDigitsGo] using digitChar_facts n
  | succ fuel ih =>
    rw [natDigitsGo]
    split
    · simpa using digitChar_facts n
    · have := ih (n / 10)
      constructor
      · simp
      · intro c hc
        rcases List.mem_append.mp hc with h | h
        · exact this.2 c h
        · simp only [List.mem_singleton] at h
          simpa [h] using digitChar_facts (n % 10)

theorem natDigits_facts (n : Nat) :
    natDigits n ≠ [] ∧ ∀ c ∈ natDigits n, c ≠ ']' ∧ c ≠ '\n' :=
  natDigitsGo_facts n n

theorem valueLine_not_eoc (k : Nat) (s : Str) : isEOCLine (valueLine k s) = false := by
  have hne := (natDigits_facts k).1
  have hlen : 0 < (natDigits k).length := List.length_pos.mpr hne
  simp only [isEOCLine, valueLine, eocLine, decide_eq_false_iff_not]
  intro h
  have := congrArg List.length h
  simp at this
  omega

theorem valueLine_head (k : Nat) (s : Str) :
    (valueLine k s).head? = some '[' := rfl

theorem dropThroughSub_past (ds s : Str) (h : ∀ c ∈ ds, c ≠ ']') :
    dropThroughSub (']' :: ':' :: [' ']) (ds ++ ']' :: ':' :: ' ' :: s) = some s := by
  induction ds with
  | nil =>
    simp only [List.nil_append]
    rw [dropThroughSub]
    simp [List.isPrefixOf]
  | cons d ds' ih =>
    simp only [List.cons_append]
    rw [dropThroughSub]
    have hd : d ≠ ']' := h d (by simp)
    have hpre : (']' :: ':' :: [' ']).isPrefixOf (d :: (ds' ++ ']' :: ':' :: ' ' :: s)) = false := by
      simp [List.isPrefixOf]
      intro hcontra
      exact absurd hcontra.symm hd
    rw [if_neg (by rw [hpre]; simp)]
    exact ih (fun c hc => h c (by simp [hc]))

theorem valueLine_drop (k : Nat) (s : Str) :
    dropThroughSub (']' :: ':' :: [' ']) (valueLine k s) = some s := by
  have : valueLine k s = ('[' :: natDigits k) ++ ']' :: ':' :: ' ' :: s := by
    simp [valueLine]
  rw [this]
  apply dropThroughSub_past
  intro c hc
  rcases List.mem_cons.mp hc with h | h
  · simp [h]
  · exact ((natDigits_facts k).2 c h).1

theorem valueLine_shape (k : Nat) (s : Str) : isValueShape (valueLine k s) = true := by
  simp [isValueShape, valueLine_head, valueLine_drop]

theorem valueLine_no_newline (k : Nat) (s : Str) (h : '\n' ∉ s) :
    '\n' ∉ valueLine k s := by
  simp only [valueLine]
  intro hmem
  rcases List.mem_cons.mp hmem with h1 | h1
  · exact absurd h1.symm (by decide)
  · rcases List.mem_append.mp h1 with h2 | h2
    · exact ((natDigits_facts k).2 '\n' h2).2 rfl
    · rcases List.mem_cons.mp h2 with h3 | h3
      · exact absurd h3.symm (by decide)
      · rcases List.mem_cons.mp h3 with h4 | h4
        · exact absurd h4.symm (by decide)
        · rcases List.mem_cons.mp h4 with h5 | h5
          · exact absurd h5.symm (by decide)
          · exact h h5

theorem eocLine_no_newline : '\n' ∉ eocLine := by decide

/-! ### `getline` splitting inverts the line-joining of `serialize` -/

theorem splitLines_append (l rest : Str) (h : '\n' ∉ l) :
    splitLines (l ++ '\n' :: rest) = l :: splitLines rest := by
  induction l with
  | nil =>
    rw [List.nil_append, splitLines]
    simp
  | cons c l' ih =>
    have hc : c ≠ '\n' := fun hcc => h (by simp [hcc])
    rw [List.cons_append, splitLines]
    have ih' := ih (fun hm => h (by simp [hm]))
    simp [hc, ih']

theorem splitLines_joinLines (lines : List Str) (h : ∀ l ∈ lines, '\n' ∉ l) :
    splitLines (joinLines lines) = lines := by
  induction lines with
  | nil => simp [joinLines, splitLines]
  | cons l ls ih =>
    rw [joinLines, splitLines_append l (joinLines ls) (h l (by simp))]
    rw [ih (fun x hx => h x (by simp [hx]))]

theorem serializeLines_no_newline (enc : α → Str) (henc : ∀ v, '\n' ∉ enc v) :
    ∀ (lin : List (Option α)) (k : Nat), ∀ l ∈ serializeLines enc lin k, '\n' ∉ l := by
  intro lin
  induction lin with
  | nil => intro k l hl; simp [serializeLines] at hl
  | cons x rest ih =>
    intro k l hl
    match x with
    | some v =>
      rw [serializeLines] at hl
      rcases List.mem_cons.mp hl with h | h
      · rw [h]; exact valueLine_no_newline k (enc v) (henc v)
      · exact ih (k + 1) l h
    | none =>
      rw [serializeLines] at hl
      rcases List.mem_cons.mp hl with h | h
      · rw [h]; exact eocLine_no_newline
      · exact ih k l h

/-! ### The parsing loop inverts the line emission on balanced sequences -/

theorem parseLines_of_serializeLines (dec : Str → Option α) (enc : α → Str)
    (hdec : ∀ v, dec (enc v) = some v) :
    ∀ (lin : List (Option α)) (k : Nat) (acc : List (Option α)) (nc eoc : Nat),
      (∀ l1 l2 : List (Option α), lin = l1 ++ l2 →
        eoc + l1.countP (fun x => x.isNone) ≤ nc + l1.countP (fun x => x.isSome)) →
      eoc + lin.countP (fun x => x.isNone) = nc + lin.countP (fun x => x.isSome) →
      parseLines dec (serializeLines enc lin k) acc nc eoc = (none, acc ++ lin) := by
  intro lin
  induction lin with
  | nil =>
    intro k acc nc eoc hpre htot
    simp only [List.countP_nil] at htot
    have heq : nc = eoc := by omega
    rw [serializeLines, parseLines]
    simp [heq]
  | cons x rest ih =>
    intro k acc nc eoc hpre htot
    match x with
    | some v =>
      rw [serializeLines, parseLines]
      simp only [valueLine_not_eoc, valueLine_shape, valueLine_drop, hdec,
        Bool.false_eq_true, if_false, if_true]
      have step := ih (k + 1) (acc ++ [some v]) (nc + 1) eoc ?hpre' ?htot'
      case hpre' =>
        intro l1 l2 hsplit
        have hh := hpre (some v :: l1) l2 (by rw [hsplit]; rfl)
        simp [List.countP_cons] at hh
        omega
      case htot' =>
        simp [List.countP_cons] at htot
        omega
      rw [step]
      simp
    | none =>
      rw [serializeLines, parseLines]
      have he : isEOCLine (eocLine : Str) = true := by decide
      simp only [he, if_true]
      have hbound := hpre [none] rest rfl
      simp [List.countP_cons] at hbound
      rw [if_neg (by omega)]
      have step := ih k (acc ++ [none]) nc (eoc + 1) ?hpre' ?htot'
      case hpre' =>
        intro l1 l2 hsplit
        have hh := hpre (none :: l1) l2 (by rw [hsplit]; rfl)
        simp [List.countP_cons] at hh
        omega
      case htot' =>
        simp [List.countP_cons] at htot
        omega
      rw [step]
      simp

/-- Parsing what `serialize` wrote recovers the linearized sequence exactly,
with no diagnostic, whenever the payload decoder inverts the encoder. -/
theorem parse_of_serialize (P : PayloadIface α) (hdec : ∀ v, P.dec (P.enc v) = some v)
    (hnl : ∀ v, '\n' ∉ P.enc v) (t : Tree α) (r : TNode α) (hr : t.root = some r) :
    parseLines P.dec (splitLines (Tree.serialize P t)) [] 0 0 = (none, linTree r) := by
  unfold Tree.serialize
  rw [Tree.linearize_of_root t r hr]
  rw [splitLines_joinLines _ (serializeLines_no_newline P.enc hnl (linTree r) 0)]
  have main := parseLines_of_serializeLines P.dec P.enc hdec (linTree r) 0 [] 0 0 ?hpre ?htot
  case hpre =>
    intro l1 l2 hsplit
    have := linTree_balance r l1 l2 hsplit
    omega
  case htot =>
    have := linTree_counts (α := α) r
    rw [this.1, this.2.1]
  simpa using main

/-! ### Lookup by id -/

theorem ID_mem_collectIds (n : TNode α) : n.ID ∈ collectIds n := by
  obtain ⟨v, i, cs⟩ := n
  simp

theorem collectIdsF_append (ds es : List (TNode α)) :
    collectIdsF (ds ++ es) = collectIdsF ds ++ collectIdsF es := by
  induction ds with
  | nil => simp
  | cons d ds' ih => simp [ih]

mutual

theorem findNode_of_not_mem (nid : Int) (r : TNode α) (h : nid ∉ collectIds r) :
    findNode nid r = none := by
  obtain ⟨v, i, cs⟩ := r
  rw [findNode]
  simp only [collectIds_mk, List.mem_cons] at h
  push_neg at h
  rw [if_neg (fun hi => h.1 hi.symm)]
  exact findForest_of_not_mem nid cs h.2

theorem findForest_of_not_mem (nid : Int) (ns : List (TNode α))
    (h : nid ∉ collectIdsF ns) : findForest nid ns = none := by
  match ns with
  | [] => rw [findForest]
  | n :: ns' =>
    simp only [collectIdsF_cons, List.mem_append] at h
    push_neg at h
    rw [findForest, findNode_of_not_mem nid n h.1]
    exact findForest_of_not_mem nid ns' h.2

end

mutual

theorem findNode_isSome (nid : Int) (r : TNode α) (h : nid ∈ collectIds r) :
    (findNode nid r).isSome = true := by
  obtain ⟨v, i, cs⟩ := r
  rw [findNode]
  by_cases hi : i = nid
  · simp [hi]
  · rw [if_neg hi]
    simp only [collectIds_mk, List.mem_cons] at h
    rcases h with h | h
    · exact absurd h.symm hi
    · exact findForest_isSome nid cs h

theorem findForest_isSome (nid : Int) (ns : List (TNode α))
    (h : nid ∈ collectIdsF ns) : (findForest nid ns).isSome = true := by
  match ns with
  | [] => simp at h
  | n :: ns' =>
    rw [findForest]
    simp only [collectIdsF_cons, List.mem_append] at h
    match hf : findNode nid n with
    | some m => simp
    | none =>
      rcases h with h | h
      · have hs := findNode_isSome nid n h
        rw [hf] at hs
        simp at hs
      · exact findForest_isSome nid ns' h

end

mutual

theorem findNode_spec (nid : Int) (r : TNode α) (m : TNode α)
    (h : findNode nid r = some m) :
    m.ID = nid ∧ ∀ x ∈ collectIds m, x ∈ collectIds r := by
  obtain ⟨v, i, cs⟩ := r
  rw [findNode] at h
  by_cases hi : i = nid
  · rw [if_pos hi] at h
    obtain rfl : TNode.mk v i cs = m := by simpa using h
    exact ⟨hi, fun x hx => hx⟩
  · rw [if_neg hi] at h
    have := findForest_spec nid cs m h
    exact ⟨this.1, fun x hx => by simp [this.2 x hx]⟩

theorem findForest_spec (nid : Int) (ns : List (TNode α)) (m : TNode α)
    (h : findForest nid ns = some m) :
    m.ID = nid ∧ ∀ x ∈ collectIds m, x ∈ collectIdsF ns := by
  match ns with
  | [] => rw [findForest] at h; exact absurd h (by simp)
  | n :: ns' =>
    rw [findForest] at h
    cases hf : findNode nid n with
    | some m' =>
      rw [hf] at h
      simp only [Option.some.injEq] at h
      subst h
      have := findNode_spec nid n m' hf
      exact ⟨this.1, fun x hx => by simp [this.2 x hx]⟩
    | none =>
      rw [hf] at h
      have := findForest_spec nid ns' m h
      exact ⟨this.1, fun x hx => by simp [this.2 x hx]⟩

end

/-! ### Child insertion: flag, ids and framing -/

theorem insertChildAt_ID (pid : Int) (c : TNode α) (r : TNode α) :
    ((insertChildAt pid c r).1).ID = r.ID := by
  obtain ⟨v, i, cs⟩ := r
  rw [insertChildAt]
  by_cases hi : i = pid
  · simp [hi]
  · simp [hi]

mutual

theorem insertChildAt_of_not_mem (pid : Int) (c : TNode α) (r : TNode α)
    (h : pid ∉ collectIds r) : insertChildAt pid c r = (r, false) := by
  obtain ⟨v, i, cs⟩ := r
  rw [insertChildAt]
  simp only [collectIds_mk, List.mem_cons] at h
  push_neg at h
  rw [if_neg (fun hi => h.1 hi.symm)]
  rw [insertChildForest_of_not_mem pid c cs h.2]

theorem insertChildForest_of_not_mem (pid : Int) (c : TNode α) (ns : List (TNode α))
    (h : pid ∉ collectIdsF ns) : insertChildForest pid c ns = (ns, false) := by
  match ns with
  | [] => rw [insertChildForest]
  | n :: ns' =>
    simp only [collectIdsF_cons, List.mem_append] at h
    push_neg at h
    rw [insertChildForest, insertChildAt_of_not_mem pid c n h.1,
      insertChildForest_of_not_mem pid c ns' h.2]
    simp

end

mutual

theorem insertChildAt_flag (pid : Int) (c : TNode α) (r : TNode α) :
    (insertChildAt pid c r).2 = true ↔ pid ∈ collectIds r := by
  obtain ⟨v, i, cs⟩ := r
  rw [insertChildAt]
  by_cases hi : i = pid
  · simp [hi]
  · simp only [if_neg hi, collectIds_mk, List.mem_cons]
    rw [insertChildForest_flag pid c cs]
    constructor
    · intro h; exact Or.inr h
    · intro h
      rcases h with h | h
      · exact absurd h.symm hi
      · exact h

theorem insertChildForest_flag (pid : Int) (c : TNode α) (ns : List (TNode α)) :
    (insertChildForest pid c ns).2 = true ↔ pid ∈ collectIdsF ns := by
  match ns with
  | [] => rw [insertChildForest]; simp
  | n :: ns' =>
    rw [insertChildForest]
    cases hf : (insertChildAt pid c n).2 with
    | true =>
      have := (insertChildAt_flag pid c n).mp hf
      simp [hf, this]
    | false =>
      have hn : pid ∉ collectIds n := by
        intro hmem
        have := (insertChildAt_flag pid c n).mpr hmem
        rw [hf] at this
        simp at this
      simp only [hf, Bool.false_eq_true, if_false, collectIdsF_cons, List.mem_append]
      rw [insertChildForest_flag pid c ns']
      constructor
      · intro h; exact Or.inr h
      · intro h
        rcases h with h | h
        · exact absurd h hn
        · exact h

end

mutual

theorem insertChildAt_ids (pid : Int) (c : TNode α) (r : TNode α)
    (h : pid ∈ collectIds r) :
    (collectIds ((insertChildAt pid c r).1)).Perm (collectIds r ++ collectIds c) := by
  obtain ⟨v, i, cs⟩ := r
  rw [insertChildAt]
  by_cases hi : i = pid
  · simp only [if_pos hi]
    simp [collectIdsF_append]
  · rw [if_neg hi]
    simp only [collectIds_mk, List.mem_cons] at h
    rcases h with h | h
    · exact absurd h.symm hi
    · have := insertChildForest_ids pid c cs h
      simp only [collectIds_mk, List.cons_append]
      exact this.cons i

theorem insertChildForest_ids (pid : Int) (c : TNode α) (ns : List (TNode α))
    (h : pid ∈ collectIdsF ns) :
    (collectIdsF ((insertChildForest pid c ns).1)).Perm
      (collectIdsF ns ++ collectIds c) := by
  match ns with
  | [] => simp at h
  | n :: ns' =>
    rw [insertChildForest]
    cases hf : (insertChildAt pid c n).2 with
    | true =>
      have hmem := (insertChildAt_flag pid c n).mp hf
      have hids := insertChildAt_ids pid c n hmem
      simp only [hf, if_true, collectIdsF_cons]
      have step1 := hids.append_right (collectIdsF ns')
      refine step1.trans ?_
      rw [List.append_assoc, List.append_assoc]
      exact List.Perm.append_left _ List.perm_append_comm
    | false =>
      have hn : pid ∉ collectIds n := by
        intro hmem
        have := (insertChildAt_flag pid c n).mpr hmem
        rw [hf] at this
        simp at this
      have h' : pid ∈ collectIdsF ns' := by
        simp only [collectIdsF_cons, List.mem_append] at h
        rcases h with h | h
        · exact absurd h hn
        · exact h
      have hrec := insertChildForest_ids pid c ns' h'
      simp only [hf, Bool.false_eq_true, if_false, collectIdsF_cons, List.append_assoc]
      exact hrec.append_left _

end

/-! ### Composing insertions: appending under a freshly inserted node -/

@[simp] theorem TNode.appendKid_mk (v : α) (i : Int) (cs : List (TNode α)) (c : TNode α) :
    (TNode.mk v i cs).appendKid c = TNode.mk v i (cs ++ [c]) := rfl

@[simp] theorem insertChildrenAt_nil (pid : Int) (r : TNode α) :
    insertChildrenAt pid [] r = r := rfl

@[simp] theorem insertChildrenAt_cons (pid : Int) (c : TNode α) (cs : List (TNode α))
    (r : TNode α) :
    insertChildrenAt pid (c :: cs) r = insertChildrenAt pid cs ((insertChildAt pid c r).1) :=
  rfl

theorem insertChildAt_flag_congr (pid : Int) (c c' : TNode α) (r : TNode α) :
    (insertChildAt pid c r).2 = (insertChildAt pid c' r).2 := by
  cases h : (insertChildAt pid c' r).2 with
  | true => exact (insertChildAt_flag pid c r).mpr ((insertChildAt_flag pid c' r).mp h)
  | false =>
    cases h2 : (insertChildAt pid c r).2 with
    | false => rfl
    | true =>
      have := (insertChildAt_flag pid c' r).mpr ((insertChildAt_flag pid c r).mp h2)
      rw [h] at this
      simp at this

theorem insertChildForest_flag_congr (pid : Int) (c c' : TNode α) (ns : List (TNode α)) :
    (insertChildForest pid c ns).2 = (insertChildForest pid c' ns).2 := by
  cases h : (insertChildForest pid c' ns).2 with
  | true => exact (insertChildForest_flag pid c ns).mpr ((insertChildForest_flag pid c' ns).mp h)
  | false =>
    cases h2 : (insertChildForest pid c ns).2 with
    | false => rfl
    | true =>
      have := (insertChildForest_flag pid c' ns).mpr ((insertChildForest_flag pid c ns).mp h2)
      rw [h] at this
      simp at this

theorem insertChildForest_append_absent (pid' : Int) (c2 : TNode α)
    (ds es : List (TNode α)) (h : pid' ∉ collectIdsF ds) :
    insertChildForest pid' c2 (ds ++ es)
      = (ds ++ (insertChildForest pid' c2 es).1, (insertChildForest pid' c2 es).2) := by
  induction ds with
  | nil => simp
  | cons d ds' ih =>
    simp only [collectIdsF_cons, List.mem_append] at h
    push_neg at h
    rw [List.cons_append, insertChildForest,
      insertChildAt_of_not_mem pid' c2 d h.1, ih h.2]
    simp

theorem insertChildAt_hit (cid : Int) (c2 c : TNode α) (h : c.ID = cid) :
    insertChildAt cid c2 c = (c.appendKid c2, true) := by
  obtain ⟨vc, ic, csc⟩ := c
  simp only [TNode.ID_mk] at h
  rw [insertChildAt, if_pos h]
  simp

mutual

theorem insertChildAt_step (pid : Int) (c c2 : TNode α) (r : TNode α)
    (h : c.ID ∉ collectIds r) :
    insertChildAt c.ID c2 ((insertChildAt pid c r).1)
      = ((insertChildAt pid (c.appendKid c2) r).1, (insertChildAt pid c r).2) := by
  obtain ⟨v, i, cs⟩ := r
  have hne : i ≠ c.ID ∧ c.ID ∉ collectIdsF cs := by
    simp only [collectIds_mk, List.mem_cons] at h
    push_neg at h
    exact ⟨fun he => h.1 he.symm, h.2⟩
  by_cases hi : i = pid
  · have h1 : insertChildAt pid c (TNode.mk v i cs) = (TNode.mk v i (cs ++ [c]), true) := by
      rw [insertChildAt, if_pos hi]
    have h2 : insertChildAt pid (c.appendKid c2) (TNode.mk v i cs)
        = (TNode.mk v i (cs ++ [c.appendKid c2]), true) := by
      rw [insertChildAt, if_pos hi]
    rw [h1, h2]
    rw [insertChildAt, if_neg hne.1]
    rw [insertChildForest_append_absent c.ID c2 cs [c] hne.2]
    have h3 : insertChildForest c.ID c2 [c] = ([c.appendKid c2], true) := by
      rw [insertChildForest, insertChildAt_hit c.ID c2 c rfl]
      simp
    rw [h3]
  · have h1 : insertChildAt pid c (TNode.mk v i cs)
        = (TNode.mk v i (insertChildForest pid c cs).1, (insertChildForest pid c cs).2) := by
      rw [insertChildAt, if_neg hi]
    have h2 : insertChildAt pid (c.appendKid c2) (TNode.mk v i cs)
        = (TNode.mk v i (insertChildForest pid (c.appendKid c2) cs).1,
            (insertChildForest pid (c.appendKid c2) cs).2) := by
      rw [insertChildAt, if_neg hi]
    rw [h1, h2]
    rw [insertChildAt, if_neg hne.1]
    rw [insertChildForest_step pid c c2 cs hne.2]

theorem insertChildForest_step (pid : Int) (c c2 : TNode α) (ds : List (TNode α))
    (h : c.ID ∉ collectIdsF ds) :
    insertChildForest c.ID c2 ((insertChildForest pid c ds).1)
      = ((insertChildForest pid (c.appendKid c2) ds).1, (insertChildForest pid c ds).2) := by
  match ds with
  | [] => simp [insertChildForest]
  | d :: ds' =>
    have hd : c.ID ∉ collectIds d := by
      simp only [collectIdsF_cons, List.mem_append] at h
      push_neg at h
      exact h.1
    have hds' : c.ID ∉ collectIdsF ds' := by
      simp only [collectIdsF_cons, List.mem_append] at h
      push_neg at h
      exact h.2
    cases hf : (insertChildAt pid c d).2 with
    | true =>
      have hinner : insertChildForest pid c (d :: ds')
          = ((insertChildAt pid c d).1 :: ds', true) := by
        rw [insertChildForest]
        simp [hf]
      have hflag2 : (insertChildAt pid (c.appendKid c2) d).2 = true := by
        rw [insertChildAt_flag_congr pid (c.appendKid c2) c d, hf]
      have hinner2 : insertChildForest pid (c.appendKid c2) (d :: ds')
          = ((insertChildAt pid (c.appendKid c2) d).1 :: ds', true) := by
        rw [insertChildForest]
        simp [hflag2]
      rw [hinner, hinner2]
      rw [insertChildForest, insertChildAt_step pid c c2 d hd]
      simp [hf]
    | false =>
      have hinner : insertChildForest pid c (d :: ds')
          = (d :: (insertChildForest pid c ds').1, (insertChildForest pid c ds').2) := by
        rw [insertChildForest]
        simp [hf]
      have hflag2 : (insertChildAt pid (c.appendKid c2) d).2 = false := by
        rw [insertChildAt_flag_congr pid (c.appendKid c2) c d, hf]
      have hinner2 : insertChildForest pid (c.appendKid c2) (d :: ds')
          = (d :: (insertChildForest pid (c.appendKid c2) ds').1,
              (insertChildForest pid (c.appendKid c2) ds').2) := by
        rw [insertChildForest]
        simp [hflag2]
      rw [hinner, hinner2]
      rw [insertChildForest, insertChildAt_of_not_mem c.ID c2 d hd,
        insertChildForest_step pid c c2 ds' hds']
      simp

end

theorem insertChildrenAt_chain (pid cid : Int) (vc : α) (ds cs2 : List (TNode α))
    (r : TNode α) (h : cid ∉ collectIds r) :
    insertChildrenAt cid cs2 ((insertChildAt pid (TNode.mk vc cid ds) r).1)
      = (insertChildAt pid (TNode.mk vc cid (ds ++ cs2)) r).1 := by
  induction cs2 generalizing ds with
  | nil => simp
  | cons c2 cs2' ih =>
    rw [insertChildrenAt_cons]
    have hstep := insertChildAt_step pid (TNode.mk vc cid ds) c2 r (by simpa using h)
    simp only [TNode.ID_mk] at hstep
    rw [hstep]
    simp only [TNode.appendKid_mk]
    rw [ih (ds ++ [c2])]
    simp

theorem insertChildrenAt_self (i : Int) (v : α) (cs ds : List (TNode α)) :
    insertChildrenAt i cs (TNode.mk v i ds) = TNode.mk v i (ds ++ cs) := by
  induction cs generalizing ds with
  | nil => simp
  | cons c cs' ih =>
    rw [insertChildrenAt_cons, insertChildAt_hit i c (TNode.mk v i ds) (by simp)]
    simp only [TNode.appendKid_mk]
    rw [ih (ds ++ [c])]
    simp

/-! ### Fresh id ranges and pre-order relabelling -/

@[simp] theorem idRange_zero (k : Int) : idRange k 0 = [] := rfl

theorem idRange_succ (k : Int) (n : Nat) :
    idRange k (n + 1) = k :: idRange (k + 1) n := rfl

theorem idRange_add (k : Int) (a b : Nat) :
    idRange k (a + b) = idRange k a ++ idRange (k + (a : Int)) b := by
  induction a generalizing k with
  | zero => simp
  | succ a' ih =>
    rw [Nat.succ_add, idRange_succ, idRange_succ, ih (k + 1)]
    have : k + 1 + (a' : Int) = k + ((a' : Nat) + 1 : Nat) := by push_cast; ring
    rw [this]
    simp

theorem mem_idRange (x k : Int) (n : Nat) :
    x ∈ idRange k n ↔ k ≤ x ∧ x < k + (n : Int) := by
  induction n generalizing k with
  | zero => simp
  | succ m ih =>
    rw [idRange_succ]
    simp only [List.mem_cons, ih (k + 1)]
    push_cast
    omega

theorem idRange_nodup (k : Int) (n : Nat) : (idRange k n).Nodup := by
  induction n generalizing k with
  | zero => simp
  | succ m ih =>
    rw [idRange_succ]
    refine List.nodup_cons.mpr ⟨?_, ih (k + 1)⟩
    intro hmem
    rw [mem_idRange] at hmem
    omega

mutual

theorem relabelT_spec (n : TNode α) (k : Int) :
    (relabelT n k).2 = k + (sizeN n : Int) ∧
      collectIds (relabelT n k).1 = idRange k (sizeN n) ∧
      preorderValues (relabelT n k).1 = preorderValues n ∧
      preorderKidCounts (relabelT n k).1 = preorderKidCounts n ∧
      sizeN (relabelT n k).1 = sizeN n := by
  obtain ⟨v, i, cs⟩ := n
  rw [relabelT]
  have ih := relabelF_spec cs (k + 1)
  refine ⟨?_, ?_, ?_, ?_, ?_⟩
  · simp only [ih.1, sizeN_mk]
    push_cast
    omega
  · simp only [collectIds_mk, ih.2.1, sizeN_mk]
    rw [Nat.add_comm 1 (sizeF cs), idRange_succ]
  · simp [ih.2.2.1]
  · simp [ih.2.2.2.1, ih.2.2.2.2.2]
  · simp [ih.2.2.2.2.1]

theorem relabelF_spec (ns : List (TNode α)) (k : Int) :
    (relabelF ns k).2 = k + (sizeF ns : Int) ∧
      collectIdsF (relabelF ns k).1 = idRange k (sizeF ns) ∧
      preorderValuesF (relabelF ns k).1 = preorderValuesF ns ∧
      preorderKidCountsF (relabelF ns k).1 = preorderKidCountsF ns ∧
      sizeF (relabelF ns k).1 = sizeF ns ∧
      (relabelF ns k).1.length = ns.length := by
  match ns with
  | [] => rw [relabelF]; simp
  | n :: ns' =>
    rw [relabelF]
    have ih1 := relabelT_spec n k
    have ih2 := relabelF_spec ns' (relabelT n k).2
    rw [ih1.1] at ih2
    simp only [ih1.1]
    refine ⟨?_, ?_, ?_, ?_, ?_, ?_⟩
    · rw [ih2.1]
      simp only [sizeF_cons]
      push_cast
      omega
    · simp only [collectIdsF_cons, ih1.2.1, ih2.2.1, sizeF_cons]
      rw [idRange_add k (sizeN n) (sizeF ns')]
    · simp [ih1.2.2.1, ih2.2.2.1]
    · simp [ih1.2.2.2.1, ih2.2.2.2.1]
    · simp [ih1.2.2.2.2, ih2.2.2.2.2.1]
    · simp [ih2.2.2.2.2.2]

end

/-! ### Unfolding the mutating operations on fresh ids -/

theorem Tree.getRootID_of_root (t : Tree α) (r : TNode α) (h : t.root = some r) :
    t.getRootID = r.ID := by
  simp [Tree.getRootID, h]

theorem Tree.getRootID_of_none (t : Tree α) (h : t.root = none) :
    t.getRootID = -1 := by
  simp [Tree.getRootID, h]

theorem Tree.setRoot_eq (t : Tree α) (v : α) (h : t.root = none)
    (hfresh : t.nodeMap.contains t.nextID = false) :
    t.setRoot v = .ok (t.nextID,
      ⟨some (.mk v t.nextID []), t.nodeMap ++ [t.nextID], t.nextID + 1⟩) := by
  have hf' : t.nextID ∉ t.nodeMap := by simpa using hfresh
  simp [Tree.setRoot, h, assignIDs, assignForest, hf']

theorem Tree.setRoot_already (t : Tree α) (v : α) (r : TNode α) (h : t.root = some r) :
    t.setRoot v = .error .AlreadyHasRoot := by
  simp [Tree.setRoot, h]

theorem Tree.appendNode_eq (t : Tree α) (pid : Int) (v : α)
    (hc : t.nodeMap.contains pid = true)
    (hfresh : t.nodeMap.contains t.nextID = false) :
    t.appendNode pid v = .ok (t.nextID,
      ⟨t.root.map (fun rt => (insertChildAt pid (.mk v t.nextID []) rt).1),
        t.nodeMap ++ [t.nextID], t.nextID + 1⟩) := by
  have hf' : t.nextID ∉ t.nodeMap := by simpa using hfresh
  have hc' : pid ∈ t.nodeMap := by simpa using hc
  simp [Tree.appendNode, hc', hf', assignIDs, assignForest]

theorem Tree.appendNode_not_found (t : Tree α) (pid : Int) (v : α)
    (hc : t.nodeMap.contains pid = false) :
    t.appendNode pid v = .error .NodeNotFound := by
  have hc' : pid ∉ t.nodeMap := by simpa using hc
  simp [Tree.appendNode, hc']

/-! ### The delinearization loop rebuilds the relabelled tree -/

mutual

theorem delinGo_linTree (n : TNode α) (rest : List (Option α)) (t : Tree α)
    (stk : List Int) (pid : Int) (r : TNode α)
    (hroot : t.root = some r) (hperm : t.nodeMap.Perm (collectIds r))
    (hnd : (collectIds r).Nodup)
    (hbound : ∀ x ∈ collectIds r, 0 ≤ x ∧ x < t.nextID)
    (hpid : pid ∈ collectIds r) :
    delinGo (linTree n ++ rest) t (pid :: stk)
      = delinGo rest
          ⟨some (insertChildAt pid (relabelT n t.nextID).1 r).1,
            t.nodeMap ++ idRange t.nextID (sizeN n),
            t.nextID + (sizeN n : Int)⟩ (pid :: stk) := by
  obtain ⟨v, i0, cs⟩ := n
  have hrid : ¬ t.getRootID = -1 := by
    rw [Tree.getRootID_of_root t r hroot]
    have := hbound r.ID (ID_mem_collectIds r)
    omega
  have hcont : t.nodeMap.contains pid = true := by
    have := hperm.mem_iff.mpr hpid
    simp [this]
  have hnotmem : t.nextID ∉ t.nodeMap := by
    intro hmem
    have := hbound _ (hperm.mem_iff.mp hmem)
    omega
  have hfresh : t.nodeMap.contains t.nextID = false := by simp [hnotmem]
  have hfreshr : t.nextID ∉ collectIds r := by
    intro hmem
    have := hbound _ hmem
    omega
  have hpos : 0 ≤ t.nextID := by
    have h0 := hbound r.ID (ID_mem_collectIds r)
    omega
  simp only [linTree_mk, List.cons_append, List.append_assoc, List.singleton_append,
    List.nil_append]
  rw [delinGo, if_neg hrid]
  simp only [List.headD_cons]
  rw [Tree.appendNode_eq t pid v hcont hfresh, hroot]
  simp only [Option.map_some']
  -- the recursive forest call on the children, under the freshly created node
  have hflag : (insertChildAt pid (TNode.mk v t.nextID []) r).2 = true :=
    (insertChildAt_flag pid (TNode.mk v t.nextID []) r).mpr hpid
  have hids1 : (collectIds (insertChildAt pid (TNode.mk v t.nextID []) r).1).Perm
      (collectIds r ++ [t.nextID]) := by
    simpa using insertChildAt_ids pid (TNode.mk v t.nextID []) r hpid
  have hnd1 : (collectIds (insertChildAt pid (TNode.mk v t.nextID []) r).1).Nodup := by
    refine hids1.symm.nodup ?_
    rw [List.nodup_append]
    refine ⟨hnd, List.nodup_singleton _, ?_⟩
    intro x hx hx'
    simp only [List.mem_singleton] at hx'
    subst hx'
    exact hfreshr hx
  have hperm1 : (t.nodeMap ++ [t.nextID]).Perm
      (collectIds (insertChildAt pid (TNode.mk v t.nextID []) r).1) :=
    (hperm.append_right [t.nextID]).trans hids1.symm
  have hbound1 : ∀ x ∈ collectIds (insertChildAt pid (TNode.mk v t.nextID []) r).1,
      0 ≤ x ∧ x < t.nextID + 1 := by
    intro x hx
    have := hids1.mem_iff.mp hx
    rcases List.mem_append.mp this with h | h
    · have h1 := hbound x h
      omega
    · simp at h
      omega
  have hpid1 : t.nextID ∈ collectIds (insertChildAt pid (TNode.mk v t.nextID []) r).1 :=
    hids1.mem_iff.mpr (by simp)
  rw [delinGo_linForest cs (none :: rest)
      ⟨some (insertChildAt pid (TNode.mk v t.nextID []) r).1,
        t.nodeMap ++ [t.nextID], t.nextID + 1⟩
      (pid :: stk) t.nextID (insertChildAt pid (TNode.mk v t.nextID []) r).1
      rfl hperm1 hnd1 hbound1 hpid1]
  rw [delinGo]
  simp only [List.isEmpty_cons, List.tail_cons, Bool.false_eq_true, if_false]
  have hchain := insertChildrenAt_chain pid t.nextID v []
    (relabelF cs (t.nextID + 1)).1 r hfreshr
  simp only [List.nil_append] at hchain
  rw [hchain]
  rw [relabelT]
  have hmap : (t.nodeMap ++ [t.nextID]) ++ idRange (t.nextID + 1) (sizeF cs)
      = t.nodeMap ++ idRange t.nextID (sizeN (TNode.mk v i0 cs)) := by
    rw [sizeN_mk, Nat.add_comm 1 (sizeF cs), idRange_succ, List.append_assoc]
    rfl
  have hnid : t.nextID + 1 + (sizeF cs : Int)
      = t.nextID + (sizeN (TNode.mk v i0 cs) : Int) := by
    rw [sizeN_mk]
    push_cast
    omega
  rw [hmap, hnid]

theorem delinGo_linForest (fs : List (TNode α)) (rest : List (Option α)) (t : Tree α)
    (stk : List Int) (pid : Int) (r : TNode α)
    (hroot : t.root = some r) (hperm : t.nodeMap.Perm (collectIds r))
    (hnd : (collectIds r).Nodup)
    (hbound : ∀ x ∈ collectIds r, 0 ≤ x ∧ x < t.nextID)
    (hpid : pid ∈ collectIds r) :
    delinGo (linForest fs ++ rest) t (pid :: stk)
      = delinGo rest
          ⟨some (insertChildrenAt pid (relabelF fs t.nextID).1 r),
            t.nodeMap ++ idRange t.nextID (sizeF fs),
            t.nextID + (sizeF fs : Int)⟩ (pid :: stk) := by
  match fs with
  | [] =>
    obtain ⟨troot, tmap, tnid⟩ := t
    simp only [Option.some.injEq] at hroot
    subst hroot
    rw [relabelF]
    simp
  | n :: fs' =>
    simp only [linForest_cons, List.append_assoc]
    rw [delinGo_linTree n (linForest fs' ++ rest) t stk pid r hroot hperm hnd hbound hpid]
    -- invariants for the state after grafting the head tree
    have hrelids : collectIds (relabelT n t.nextID).1 = idRange t.nextID (sizeN n) :=
      (relabelT_spec n t.nextID).2.1
    have hflag : (insertChildAt pid (relabelT n t.nextID).1 r).2 = true :=
      (insertChildAt_flag pid (relabelT n t.nextID).1 r).mpr hpid
    have hids1 : (collectIds (insertChildAt pid (relabelT n t.nextID).1 r).1).Perm
        (collectIds r ++ idRange t.nextID (sizeN n)) := by
      have := insertChildAt_ids pid (relabelT n t.nextID).1 r hpid
      rwa [hrelids] at this
    have hnd1 : (collectIds (insertChildAt pid (relabelT n t.nextID).1 r).1).Nodup := by
      refine hids1.symm.nodup ?_
      rw [List.nodup_append]
      refine ⟨hnd, idRange_nodup _ _, ?_⟩
      intro x hx hx'
      have h1 := hbound x hx
      have h2 := (mem_idRange x t.nextID (sizeN n)).mp hx'
      omega
    have hperm1 : (t.nodeMap ++ idRange t.nextID (sizeN n)).Perm
        (collectIds (insertChildAt pid (relabelT n t.nextID).1 r).1) :=
      (hperm.append_right _).trans hids1.symm
    have hpos : 0 ≤ t.nextID := by
      have h0 := hbound r.ID (ID_mem_collectIds r)
      omega
    have hbound1 : ∀ x ∈ collectIds (insertChildAt pid (relabelT n t.nextID).1 r).1,
        0 ≤ x ∧ x < t.nextID + (sizeN n : Int) := by
      intro x hx
      have hm := hids1.mem_iff.mp hx
      rcases List.mem_append.mp hm with h | h
      · have h1 := hbound x h
        have h2 : (0 : Int) ≤ (sizeN n : Int) := by positivity
        omega
      · have h1 := (mem_idRange x t.nextID (sizeN n)).mp h
        omega
    have hpid1 : pid ∈ collectIds (insertChildAt pid (relabelT n t.nextID).1 r).1 :=
      hids1.mem_iff.mpr (by simp [hpid])
    rw [delinGo_linForest fs' rest
        ⟨some (insertChildAt pid (relabelT n t.nextID).1 r).1,
          t.nodeMap ++ idRange t.nextID (sizeN n),
          t.nextID + (sizeN n : Int)⟩
        stk pid (insertChildAt pid (relabelT n t.nextID).1 r).1
        rfl hperm1 hnd1 hbound1 hpid1]
    rw [relabelF]
    have hsndT : (relabelT n t.nextID).2 = t.nextID + (sizeN n : Int) :=
      (relabelT_spec n t.nextID).1
    simp only [insertChildrenAt_cons, hsndT]
    have hmap : (t.nodeMap ++ idRange t.nextID (sizeN n))
          ++ idRange (t.nextID + (sizeN n : Int)) (sizeF fs')
        = t.nodeMap ++ idRange t.nextID (sizeF (n :: fs')) := by
      rw [sizeF_cons, idRange_add, List.append_assoc]
    have hnid : t.nextID + (sizeN n : Int) + (sizeF fs' : Int)
        = t.nextID + (sizeF (n :: fs') : Int) := by
      rw [sizeF_cons]
      push_cast
      omega
    rw [hmap, hnid]

end

/-- Delinearizing the pre-order form of `n` from a fresh tree rebuilds `n`
relabelled in pre-order from id 0, with the index and counter to match. -/
theorem delinGo_linTree_from_empty (n : TNode α) :
    delinGo (linTree n) (Tree.empty : Tree α) []
      = .ok ⟨some (relabelT n 0).1, idRange 0 (sizeN n), (sizeN n : Int)⟩ := by
  obtain ⟨v, i0, cs⟩ := n
  simp only [linTree_mk]
  rw [delinGo]
  rw [if_pos (Tree.getRootID_of_none (Tree.empty : Tree α) rfl)]
  rw [Tree.setRoot_eq (Tree.empty : Tree α) v rfl (by simp [Tree.empty])]
  show delinGo (linForest cs ++ [none])
      (⟨some (TNode.mk v 0 []), [0], 1⟩ : Tree α) [0] = _
  rw [delinGo_linForest cs [none]
      ⟨some (TNode.mk v 0 []), [0], 1⟩ [] 0 (TNode.mk v 0 [])
      rfl (by simp) (by simp)
      (by intro x hx; simp at hx; subst hx; exact ⟨le_refl 0, by norm_num⟩) (by simp)]
  rw [delinGo]
  simp only [List.isEmpty_cons, Bool.false_eq_true, if_false, List.tail_cons]
  rw [delinGo]
  rw [insertChildrenAt_self 0 v (relabelF cs 1).1 []]
  simp only [List.nil_append]
  rw [relabelT]
  have hmap : ([(0 : Int)] ++ idRange 1 (sizeF cs))
      = idRange 0 (sizeN (TNode.mk v i0 cs)) := by
    rw [sizeN_mk, Nat.add_comm 1 (sizeF cs), idRange_succ]
    rfl
  have hnid : (1 : Int) + (sizeF cs : Int) = (sizeN (TNode.mk v i0 cs) : Int) := by
    rw [sizeN_mk]
    push_cast
    omega
  rw [hmap, hnid]
  norm_num

/-- Full round trip: deserializing what `serialize` wrote over a faithful
payload codec returns (with no diagnostic) the source tree relabelled in
pre-order from id 0. -/
theorem deserialize_serialize (P : PayloadIface α) (hchk : T_compatible_check P = true)
    (hdec : ∀ v, P.dec (P.enc v) = some v) (hnl : ∀ v, '\n' ∉ P.enc v)
    (t : Tree α) (r : TNode α) (hr : t.root = some r) :
    deserialize P (Tree.serialize P t)
      = (none, .ok ⟨some (relabelT r 0).1, idRange 0 (sizeN r), (sizeN r : Int)⟩) := by
  have hdel : delinearize P (linTree r) = delinGo (linTree r) (Tree.empty : Tree α) [] := by
    unfold delinearize Tree.mkNew
    rw [if_pos hchk]
  unfold deserialize
  rw [parse_of_serialize P hdec hnl t r hr]
  show ((none : Option TreeError), delinearize P (linTree r)) = _
  rw [hdel, delinGo_linTree_from_empty r]

/-! ### Subtree removal: detachment erases exactly the found subtree's ids -/

theorem findNode_self (n : TNode α) : findNode n.ID n = some n := by
  obtain ⟨v, i, cs⟩ := n
  rw [findNode]
  simp

mutual

theorem removeChildNode_of_not_mem (nid : Int) (r : TNode α)
    (h : nid ∉ collectIds r) : removeChildNode nid r = (r, false) := by
  obtain ⟨v, i, cs⟩ := r
  rw [removeChildNode]
  simp only [collectIds_mk, List.mem_cons] at h
  push_neg at h
  rw [removeChildForest_of_not_mem nid cs h.2]

theorem removeChildForest_of_not_mem (nid : Int) (ns : List (TNode α))
    (h : nid ∉ collectIdsF ns) : removeChildForest nid ns = (ns, false) := by
  match ns with
  | [] => rw [removeChildForest]
  | n :: ns' =>
    simp only [collectIdsF_cons, List.mem_append] at h
    push_neg at h
    have hid : ¬ n.ID = nid := by
      intro he
      exact h.1 (he ▸ ID_mem_collectIds n)
    rw [removeChildForest, if_neg hid, removeChildNode_of_not_mem nid n h.1,
      removeChildForest_of_not_mem nid ns' h.2]
    simp

end

mutual

theorem removeChildNode_ids (nid : Int) (r : TNode α) (m : TNode α)
    (hnd : (collectIds r).Nodup) (hfind : findNode nid r = some m)
    (hne : r.ID ≠ nid) :
    (removeChildNode nid r).2 = true ∧
      collectIds (removeChildNode nid r).1
        = (collectIds r).filter (fun x => !((collectIds m).contains x)) := by
  obtain ⟨v, i, cs⟩ := r
  rw [findNode] at hfind
  simp only [TNode.ID_mk] at hne
  rw [if_neg hne] at hfind
  simp only [collectIds_mk, List.nodup_cons] at hnd
  have hrec := removeChildForest_ids nid cs m hnd.2 hfind
  rw [removeChildNode]
  refine ⟨hrec.1, ?_⟩
  have hm : i ∉ collectIds m := by
    intro hmem
    exact hnd.1 ((findForest_spec nid cs m hfind).2 i hmem)
  simp only [collectIds_mk, hrec.2, List.filter_cons]
  simp [hm]

theorem removeChildForest_ids (nid : Int) (ns : List (TNode α)) (m : TNode α)
    (hnd : (collectIdsF ns).Nodup) (hfind : findForest nid ns = some m) :
    (removeChildForest nid ns).2 = true ∧
      collectIdsF (removeChildForest nid ns).1
        = (collectIdsF ns).filter (fun x => !((collectIds m).contains x)) := by
  match ns with
  | [] => rw [findForest] at hfind; exact absurd hfind (by simp)
  | n :: ns' =>
    simp only [collectIdsF_cons] at hnd
    rw [List.nodup_append] at hnd
    rw [findForest] at hfind
    by_cases hid : n.ID = nid
    · -- the head of the forest is the node to detach
      have hfn : findNode nid n = some n := hid ▸ findNode_self n
      rw [hfn] at hfind
      simp only [Option.some.injEq] at hfind
      subst hfind
      have hstep : removeChildForest nid (n :: ns') = (ns', true) := by
        rw [removeChildForest, if_pos hid]
      rw [hstep]
      refine ⟨rfl, ?_⟩
      have h1 : (collectIds n).filter (fun x => !((collectIds n).contains x)) = [] := by
        rw [List.filter_eq_nil_iff]
        intro a ha
        simp [ha]
      have h2 : (collectIdsF ns').filter (fun x => !((collectIds n).contains x))
          = collectIdsF ns' := by
        rw [List.filter_eq_self]
        intro a ha
        have ham : a ∉ collectIds n := fun hm => hnd.2.2 hm ha
        simp [ham]
      rw [collectIdsF_cons, List.filter_append, h1, h2, List.nil_append]
    · cases hfn : findNode nid n with
      | some m' =>
        rw [hfn] at hfind
        simp only [Option.some.injEq] at hfind
        subst hfind
        have hrec := removeChildNode_ids nid n m' hnd.1 hfn hid
        have hstep : removeChildForest nid (n :: ns')
            = ((removeChildNode nid n).1 :: ns', true) := by
          rw [removeChildForest, if_neg hid]
          simp [hrec.1]
        rw [hstep]
        refine ⟨rfl, ?_⟩
        have h2 : (collectIdsF ns').filter (fun x => !((collectIds m').contains x))
            = collectIdsF ns' := by
          rw [List.filter_eq_self]
          intro a ha
          have ham : a ∉ collectIds m' := by
            intro hm
            exact hnd.2.2 ((findNode_spec nid n m' hfn).2 a hm) ha
          simp [ham]
        rw [collectIdsF_cons, collectIdsF_cons, hrec.2, List.filter_append, h2]
      | none =>
        rw [hfn] at hfind
        have hnmem : nid ∉ collectIds n := by
          intro hmem
          have := findNode_isSome nid n hmem
          rw [hfn] at this
          simp at this
        have hrec := removeChildForest_ids nid ns' m hnd.2.1 hfind
        have hstep : removeChildForest nid (n :: ns')
            = (n :: (removeChildForest nid ns').1, (removeChildForest nid ns').2) := by
          rw [removeChildForest, if_neg hid, removeChildNode_of_not_mem nid n hnmem]
          simp
        rw [hstep]
        refine ⟨hrec.1, ?_⟩
        have h1 : (collectIds n).filter (fun x => !((collectIds m).contains x))
            = collectIds n := by
          rw [List.filter_eq_self]
          intro a ha
          have ham : a ∉ collectIds m := by
            intro hm
            exact hnd.2.2 ha ((findForest_spec nid ns' m hfind).2 a hm)
          simp [ham]
        rw [collectIdsF_cons, collectIdsF_cons, hrec.2, List.filter_append, h1]

end

/-! ### Unfolding `removeNode` -/

theorem Tree.removeNode_root_err (t : Tree α) (nid : Int) (h : nid = t.getRootID) :
    t.removeNode nid = .error .CannotRemoveRoot := by
  simp [Tree.removeNode, h]

theorem Tree.removeNode_not_found (t : Tree α) (nid : Int)
    (h : ¬ nid = t.getRootID) (hc : t.nodeMap.contains nid = false) :
    t.removeNode nid = .error .NodeNotFound := by
  have hc' : nid ∉ t.nodeMap := by simpa using hc
  simp [Tree.removeNode, h, hc']

theorem Tree.removeNode_ok (t : Tree α) (nid : Int) (r m : TNode α)
    (hroot : t.root = some r) (h : ¬ nid = t.getRootID)
    (hc : t.nodeMap.contains nid = true) (hfind : findNode nid r = some m) :
    t.removeNode nid = .ok ⟨some (removeChildNode nid r).1,
      t.nodeMap.filter (fun k => !((collectIds m).contains k)), t.nextID⟩ := by
  have hc' : nid ∈ t.nodeMap := by simpa using hc
  simp [Tree.removeNode, h, hc', hroot, hfind]

/-! ### The index invariant is preserved by every public mutation -/

theorem TreeInv_empty : TreeInv (Tree.empty : Tree α) :=
  ⟨rfl, le_refl 0⟩

theorem TreeInv_applyOp (t : Tree α) (op : TreeOp α) (h : TreeInv t) :
    TreeInv (applyOp t op) := by
  match op with
  | .setRootOp v =>
    rw [applyOp]
    cases hroot : t.root with
    | some r =>
      rw [Tree.setRoot_already t v r hroot]
      exact h
    | none =>
      simp only [TreeInv, hroot] at h
      have hfresh : t.nodeMap.contains t.nextID = false := by simp [h.1]
      rw [Tree.setRoot_eq t v hroot hfresh]
      show TreeInv ⟨some (.mk v t.nextID []), t.nodeMap ++ [t.nextID], t.nextID + 1⟩
      simp only [TreeInv, h.1]
      refine ⟨by simp, by simp, ?_⟩
      intro i hi
      simp at hi
      subst hi
      omega
  | .appendChildOp pid v =>
    rw [applyOp]
    cases hc : t.nodeMap.contains pid with
    | false =>
      rw [Tree.appendNode_not_found t pid v hc]
      exact h
    | true =>
      cases hroot : t.root with
      | none =>
        simp only [TreeInv, hroot] at h
        rw [h.1] at hc
        simp at hc
      | some r =>
        simp only [TreeInv, hroot] at h
        obtain ⟨hperm, hnd, hbound⟩ := h
        have hpid : pid ∈ collectIds r := hperm.mem_iff.mp (by simpa using hc)
        have hnotmem : t.nextID ∉ t.nodeMap := by
          intro hmem
          have := hbound _ (hperm.mem_iff.mp hmem)
          omega
        have hfresh : t.nodeMap.contains t.nextID = false := by simp [hnotmem]
        have hfreshr : t.nextID ∉ collectIds r := by
          intro hmem
          have := hbound _ hmem
          omega
        rw [Tree.appendNode_eq t pid v hc hfresh, hroot]
        show TreeInv ⟨some (insertChildAt pid (.mk v t.nextID []) r).1,
          t.nodeMap ++ [t.nextID], t.nextID + 1⟩
        have hids1 : (collectIds (insertChildAt pid (TNode.mk v t.nextID []) r).1).Perm
            (collectIds r ++ [t.nextID]) := by
          simpa using insertChildAt_ids pid (TNode.mk v t.nextID []) r hpid
        simp only [TreeInv]
        refine ⟨(hperm.append_right [t.nextID]).trans hids1.symm, ?_, ?_⟩
        · refine hids1.symm.nodup ?_
          rw [List.nodup_append]
          refine ⟨hnd, List.nodup_singleton _, ?_⟩
          intro x hx hx'
          simp only [List.mem_singleton] at hx'
          subst hx'
          exact hfreshr hx
        · intro x hx
          have hm := hids1.mem_iff.mp hx
          rcases List.mem_append.mp hm with hcase | hcase
          · have := hbound x hcase
            omega
          · simp at hcase
            subst hcase
            have h0 := hbound r.ID (ID_mem_collectIds r)
            omega
  | .removeSubtreeOp nid =>
    rw [applyOp]
    by_cases hrt : nid = t.getRootID
    · rw [Tree.removeNode_root_err t nid hrt]
      exact h
    · cases hc : t.nodeMap.contains nid with
      | false =>
        rw [Tree.removeNode_not_found t nid hrt hc]
        exact h
      | true =>
        cases hroot : t.root with
        | none =>
          simp only [TreeInv, hroot] at h
          rw [h.1] at hc
          simp at hc
        | some r =>
          simp only [TreeInv, hroot] at h
          obtain ⟨hperm, hnd, hbound⟩ := h
          have hmem : nid ∈ collectIds r := hperm.mem_iff.mp (by simpa using hc)
          obtain ⟨m, hfind⟩ : ∃ m, findNode nid r = some m := by
            cases hf : findNode nid r with
            | none =>
              have := findNode_isSome nid r hmem
              rw [hf] at this
              simp at this
            | some m => exact ⟨m, rfl⟩
          have hne : r.ID ≠ nid := by
            intro he
            exact hrt (by rw [Tree.getRootID_of_root t r hroot, he])
          rw [Tree.removeNode_ok t nid r m hroot hrt hc hfind]
          show TreeInv ⟨some (removeChildNode nid r).1,
            t.nodeMap.filter (fun k => !((collectIds m).contains k)), t.nextID⟩
          have hrem := removeChildNode_ids nid r m hnd hfind hne
          simp only [TreeInv]
          refine ⟨?_, ?_, ?_⟩
          · rw [hrem.2]
            exact hperm.filter _
          · rw [hrem.2]
            exact hnd.filter _
          · intro x hx
            rw [hrem.2] at hx
            exact hbound x (List.mem_of_mem_filter hx)

theorem TreeInv_applyOps (ops : List (TreeOp α)) (t : Tree α) (h : TreeInv t) :
    TreeInv (applyOps t ops) := by
  induction ops generalizing t with
  | nil => exact h
  | cons op ops' ih => exact ih (applyOp t op) (TreeInv_applyOp t op h)

/-! ### Framing: an insertion changes no other node's value or child list -/

theorem findForest_append (q : Int) (ds es : List (TNode α)) :
    findForest q (ds ++ es)
      = match findForest q ds with
        | some m => some m
        | none => findForest q es := by
  induction ds with
  | nil => simp [findForest]
  | cons d ds' ih =>
    rw [List.cons_append, findForest, findForest]
    cases hf : findNode q d with
    | some m => simp
    | none => simpa using ih

mutual

theorem insertChildForest_map_ID (pid : Int) (c : TNode α) (ds : List (TNode α)) :
    ((insertChildForest pid c ds).1).map TNode.ID = ds.map TNode.ID := by
  match ds with
  | [] => rw [insertChildForest]
  | d :: ds' =>
    rw [insertChildForest]
    cases hf : (insertChildAt pid c d).2 with
    | true =>
      simp only [hf, if_true, List.map_cons]
      rw [insertChildAt_ID]
    | false =>
      simp only [hf, Bool.false_eq_true, if_false, List.map_cons]
      rw [insertChildForest_map_ID pid c ds']

end

theorem insertChildAt_ID_dummy (pid : Int) (c r : TNode α) :
    ((insertChildAt pid c r).1).ID = r.ID := insertChildAt_ID pid c r

mutual

theorem findNode_insert_frame (pid q : Int) (c : TNode α) (r : TNode α)
    (hnd : (collectIds r).Nodup)
    (hdisj : ∀ x ∈ collectIds c, x ∉ collectIds r)
    (hq : q ∈ collectIds r) :
    ((findNode q ((insertChildAt pid c r).1)).map TNode.value
        = (findNode q r).map TNode.value) ∧
    ((findNode q ((insertChildAt pid c r).1)).map (fun n => n.children.map TNode.ID)
        = if q = pid
          then (findNode q r).map (fun n => n.children.map TNode.ID ++ [c.ID])
          else (findNode q r).map (fun n => n.children.map TNode.ID)) := by
  obtain ⟨v, i, cs⟩ := r
  have hqc : q ∉ collectIds c := fun hqc => hdisj q hqc hq
  simp only [collectIds_mk, List.nodup_cons] at hnd
  by_cases hi : i = pid
  · have hins : insertChildAt pid c (TNode.mk v i cs) = (TNode.mk v i (cs ++ [c]), true) := by
      rw [insertChildAt, if_pos hi]
    rw [hins]
    by_cases hqi : i = q
    · have hL : findNode q (TNode.mk v i (cs ++ [c])) = some (TNode.mk v i (cs ++ [c])) := by
        rw [findNode, if_pos hqi]
      have hR : findNode q (TNode.mk v i cs) = some (TNode.mk v i cs) := by
        rw [findNode, if_pos hqi]
      rw [hL, hR]
      have hqp : q = pid := by rw [← hqi, hi]
      rw [if_pos hqp]
      simp
    · have hL : findNode q (TNode.mk v i (cs ++ [c])) = findForest q (cs ++ [c]) := by
        rw [findNode, if_neg hqi]
      have hR : findNode q (TNode.mk v i cs) = findForest q cs := by
        rw [findNode, if_neg hqi]
      have hqcs : q ∈ collectIdsF cs := by
        simp only [collectIds_mk, List.mem_cons] at hq
        rcases hq with hq | hq
        · exact absurd hq.symm hqi
        · exact hq
      have hsome := findForest_isSome q cs hqcs
      have happ : findForest q (cs ++ [c]) = findForest q cs := by
        rw [findForest_append]
        cases hf : findForest q cs with
        | some m => rfl
        | none => rw [hf] at hsome; simp at hsome
      have hqp : ¬ q = pid := fun hqp => hqi (by rw [hi, hqp])
      rw [hL, hR, happ, if_neg hqp]
      simp
  · have hins : insertChildAt pid c (TNode.mk v i cs)
        = (TNode.mk v i (insertChildForest pid c cs).1, (insertChildForest pid c cs).2) := by
      rw [insertChildAt, if_neg hi]
    rw [hins]
    by_cases hqi : i = q
    · have hL : findNode q (TNode.mk v i (insertChildForest pid c cs).1)
          = some (TNode.mk v i (insertChildForest pid c cs).1) := by
        rw [findNode, if_pos hqi]
      have hR : findNode q (TNode.mk v i cs) = some (TNode.mk v i cs) := by
        rw [findNode, if_pos hqi]
      have hqp : ¬ q = pid := fun hqp => hi (hqi.trans hqp)
      rw [hL, hR, if_neg hqp]
      simp only [Option.map_some', Option.some.injEq, TNode.value_mk, TNode.children_mk]
      exact ⟨trivial, insertChildForest_map_ID pid c cs⟩
    · have hL : findNode q (TNode.mk v i (insertChildForest pid c cs).1)
          = findForest q (insertChildForest pid c cs).1 := by
        rw [findNode, if_neg hqi]
      have hR : findNode q (TNode.mk v i cs) = findForest q cs := by
        rw [findNode, if_neg hqi]
      have hqcs : q ∈ collectIdsF cs := by
        simp only [collectIds_mk, List.mem_cons] at hq
        rcases hq with hq | hq
        · exact absurd hq.symm hqi
        · exact hq
      rw [hL, hR]
      exact findForest_insert_frame pid q c cs hnd.2
        (fun x hx hx' => hdisj x hx (by simp [hx'])) hqcs

theorem findForest_insert_frame (pid q : Int) (c : TNode α) (ds : List (TNode α))
    (hnd : (collectIdsF ds).Nodup)
    (hdisj : ∀ x ∈ collectIds c, x ∉ collectIdsF ds)
    (hq : q ∈ collectIdsF ds) :
    ((findForest q ((insertChildForest pid c ds).1)).map TNode.value
        = (findForest q ds).map TNode.value) ∧
    ((findForest q ((insertChildForest pid c ds).1)).map (fun n => n.children.map TNode.ID)
        = if q = pid
          then (findForest q ds).map (fun n => n.children.map TNode.ID ++ [c.ID])
          else (findForest q ds).map (fun n => n.children.map TNode.ID)) := by
  match ds with
  | [] => simp at hq
  | n :: ns =>
    simp only [collectIdsF_cons] at hnd hq
    rw [List.nodup_append] at hnd
    have hqc : q ∉ collectIds c := fun hqc => hdisj q hqc (by simpa using hq)
    cases hf : (insertChildAt pid c n).2 with
    | true =>
      have hpidn : pid ∈ collectIds n := (insertChildAt_flag pid c n).mp hf
      have hins : insertChildForest pid c (n :: ns)
          = ((insertChildAt pid c n).1 :: ns, true) := by
        rw [insertChildForest]
        simp [hf]
      rw [hins]
      by_cases hqn : q ∈ collectIds n
      · have hnodeframe := findNode_insert_frame pid q c n hnd.1
          (fun x hx hx' => hdisj x hx (by simp [hx'])) hqn
        have hRsome := findNode_isSome q n hqn
        have hLsome : (findNode q (insertChildAt pid c n).1).isSome = true := by
          apply findNode_isSome
          have hids := insertChildAt_ids pid c n hpidn
          exact hids.mem_iff.mpr (by simp [hqn])
        cases hLf : findNode q (insertChildAt pid c n).1 with
        | none => rw [hLf] at hLsome; simp at hLsome
        | some mL =>
          cases hRf : findNode q n with
          | none => rw [hRf] at hRsome; simp at hRsome
          | some mR =>
            have hLfor : findForest q ((insertChildAt pid c n).1 :: ns) = some mL := by
              rw [findForest, hLf]
            have hRfor : findForest q (n :: ns) = some mR := by
              rw [findForest, hRf]
            rw [hLfor, hRfor]
            rw [hLf, hRf] at hnodeframe
            simpa using hnodeframe
      · have hqns : q ∈ collectIdsF ns := by
          rcases List.mem_append.mp hq with hcase | hcase
          · exact absurd hcase hqn
          · exact hcase
        have hqp : ¬ q = pid := by
          intro hqp
          subst hqp
          exact (hnd.2.2 hpidn) hqns
        have hLnone : findNode q (insertChildAt pid c n).1 = none := by
          apply findNode_of_not_mem
          intro hmem
          have hids := insertChildAt_ids pid c n hpidn
          rcases List.mem_append.mp (hids.mem_iff.mp hmem) with hcase | hcase
          · exact hqn hcase
          · exact hqc hcase
        have hRnone : findNode q n = none := findNode_of_not_mem q n hqn
        have hLfor : findForest q ((insertChildAt pid c n).1 :: ns) = findForest q ns := by
          rw [findForest, hLnone]
        have hRfor : findForest q (n :: ns) = findForest q ns := by
          rw [findForest, hRnone]
        rw [hLfor, hRfor, if_neg hqp]
        simp
    | false =>
      have hpidn : pid ∉ collectIds n := by
        intro hmem
        have := (insertChildAt_flag pid c n).mpr hmem
        rw [hf] at this
        simp at this
      have hins : insertChildForest pid c (n :: ns)
          = (n :: (insertChildForest pid c ns).1, (insertChildForest pid c ns).2) := by
        rw [insertChildForest]
        simp [hf]
      rw [hins]
      by_cases hqn : q ∈ collectIds n
      · have hqp : ¬ q = pid := fun hqp => hpidn (hqp ▸ hqn)
        cases hRf : findNode q n with
        | none =>
          have := findNode_isSome q n hqn
          rw [hRf] at this
          simp at this
        | some mR =>
          have hLfor : findForest q (n :: (insertChildForest pid c ns).1) = some mR := by
            rw [findForest, hRf]
          have hRfor : findForest q (n :: ns) = some mR := by
            rw [findForest, hRf]
          rw [hLfor, hRfor, if_neg hqp]
          simp
      · have hqns : q ∈ collectIdsF ns := by
          rcases List.mem_append.mp hq with hcase | hcase
          · exact absurd hcase hqn
          · exact hcase
        have hRnone : findNode q n = none := findNode_of_not_mem q n hqn
        have hLfor : findForest q (n :: (insertChildForest pid c ns).1)
            = findForest q (insertChildForest pid c ns).1 := by
          rw [findForest, hRnone]
        have hRfor : findForest q (n :: ns) = findForest q ns := by
          rw [findForest, hRnone]
        rw [hLfor, hRfor]
        exact findForest_insert_frame pid q c ns hnd.2.1
          (fun x hx hx' => hdisj x hx (by simp [hx'])) hqns

end

mutual

theorem findNode_insert_new (pid : Int) (c : TNode α) (r : TNode α)
    (hdisj : ∀ x ∈ collectIds c, x ∉ collectIds r)
    (hpid : pid ∈ collectIds r) :
    findNode c.ID ((insertChildAt pid c r).1) = some c := by
  obtain ⟨v, i, cs⟩ := r
  have hci : ¬ i = c.ID := by
    intro he
    exact hdisj c.ID (ID_mem_collectIds c) (by simp [he.symm]) 
  by_cases hi : i = pid
  · have hins : insertChildAt pid c (TNode.mk v i cs) = (TNode.mk v i (cs ++ [c]), true) := by
      rw [insertChildAt, if_pos hi]
    rw [hins, findNode, if_neg hci, findForest_append]
    have hnone : findForest c.ID cs = none := by
      apply findForest_of_not_mem
      intro hmem
      exact hdisj c.ID (ID_mem_collectIds c) (by simp [hmem])
    rw [hnone]
    have : findForest c.ID [c] = some c := by
      rw [findForest, findNode_self c]
    rw [this]
  · have hins : insertChildAt pid c (TNode.mk v i cs)
        = (TNode.mk v i (insertChildForest pid c cs).1, (insertChildForest pid c cs).2) := by
      rw [insertChildAt, if_neg hi]
    rw [hins, findNode, if_neg hci]
    have hpidcs : pid ∈ collectIdsF cs := by
      simp only [collectIds_mk, List.mem_cons] at hpid
      rcases hpid with hcase | hcase
      · exact absurd hcase.symm hi
      · exact hcase
    exact findForest_insert_new pid c cs
      (fun x hx hx' => hdisj x hx (by simp [hx'])) hpidcs

theorem findForest_insert_new (pid : Int) (c : TNode α) (ds : List (TNode α))
    (hdisj : ∀ x ∈ collectIds c, x ∉ collectIdsF ds)
    (hpid : pid ∈ collectIdsF ds) :
    findForest c.ID ((insertChildForest pid c ds).1) = some c := by
  match ds with
  | [] => simp at hpid
  | n :: ns =>
    cases hf : (insertChildAt pid c n).2 with
    | true =>
      have hpidn : pid ∈ collectIds n := (insertChildAt_flag pid c n).mp hf
      have hins : insertChildForest pid c (n :: ns)
          = ((insertChildAt pid c n).1 :: ns, true) := by
        rw [insertChildForest]
        simp [hf]
      rw [hins, findForest]
      rw [findNode_insert_new pid c n
        (fun x hx hx' => hdisj x hx (by simp [hx'])) hpidn]
    | false =>
      have hpidn : pid ∉ collectIds n := by
        intro hmem
        have := (insertChildAt_flag pid c n).mpr hmem
        rw [hf] at this
        simp at this
      have hins : insertChildForest pid c (n :: ns)
          = (n :: (insertChildForest pid c ns).1, (insertChildForest pid c ns).2) := by
        rw [insertChildForest]
        simp [hf]
      rw [hins, findForest]
      have hnone : findNode c.ID n = none := by
        apply findNode_of_not_mem
        intro hmem
        exact hdisj c.ID (ID_mem_collectIds c) (by simp [hmem])
      rw [hnone]
      have hpidns : pid ∈ collectIdsF ns := by
        simp only [collectIdsF_cons, List.mem_append] at hpid
        rcases hpid with hcase | hcase
        · exact absurd hcase hpidn
        · exact hcase
      exact findForest_insert_new pid c ns
        (fun x hx hx' => hdisj x hx (by simp [hx'])) hpidns

end

/-! ### Unfolding and inverting the read accessors -/

theorem Tree.getValue_not_found (t : Tree α) (nid : Int)
    (hc : t.nodeMap.contains nid = false) :
    t.getValue nid = .error .NodeNotFound := by
  have hc' : nid ∉ t.nodeMap := by simpa using hc
  simp [Tree.getValue, hc']

theorem Tree.getValue_ok (t : Tree α) (nid : Int) (r m : TNode α)
    (hroot : t.root = some r) (hc : t.nodeMap.contains nid = true)
    (hfind : findNode nid r = some m) :
    t.getValue nid = .ok m.value := by
  have hc' : nid ∈ t.nodeMap := by simpa using hc
  simp [Tree.getValue, hc', hroot, hfind]

theorem Tree.getChildrenIDs_not_found (t : Tree α) (nid : Int)
    (hc : t.nodeMap.contains nid = false) :
    t.getChildrenIDs nid = .error .NodeNotFound := by
  have hc' : nid ∉ t.nodeMap := by simpa using hc
  simp [Tree.getChildrenIDs, hc']

theorem Tree.getChildrenIDs_ok (t : Tree α) (nid : Int) (r m : TNode α)
    (hroot : t.root = some r) (hc : t.nodeMap.contains nid = true)
    (hfind : findNode nid r = some m) :
    t.getChildrenIDs nid = .ok (m.children.map TNode.ID) := by
  have hc' : nid ∈ t.nodeMap := by simpa using hc
  simp [Tree.getChildrenIDs, hc', hroot, hfind]

theorem Tree.getChildrenIDs_ok_inv (t : Tree α) (q : Int) (l : List Int)
    (h : t.getChildrenIDs q = .ok l) :
    ∃ rt n, t.root = some rt ∧ findNode q rt = some n ∧ l = n.children.map TNode.ID := by
  unfold Tree.getChildrenIDs at h
  split_ifs at h with h1
  · cases hroot : t.root with
    | none =>
      rw [hroot] at h
      simp at h
    | some rt =>
      rw [hroot] at h
      simp only [Option.some_bind] at h
      cases hfind : findNode q rt with
      | none =>
        rw [hfind] at h
        simp at h
      | some n =>
        rw [hfind] at h
        simp only [Except.ok.injEq] at h
        exact ⟨rt, n, rfl, hfind, h.symm⟩

theorem Tree.removeNode_ok_guards (t : Tree α) (nid : Int) (t' : Tree α)
    (h : t.removeNode nid = .ok t') :
    ¬ nid = t.getRootID ∧ t.nodeMap.contains nid = true := by
  constructor
  · intro hrt
    rw [Tree.removeNode_root_err t nid hrt] at h
    simp at h
  · cases hc : t.nodeMap.contains nid with
    | true => rfl
    | false =>
      have hrt : ¬ nid = t.getRootID := by
        intro hrt
        rw [Tree.removeNode_root_err t nid hrt] at h
        simp at h
      rw [Tree.removeNode_not_found t nid hrt hc] at h
      simp at h

theorem mem_collectIdsF_of_mem (cs : List (TNode α)) (c : TNode α) (h : c ∈ cs) :
    c.ID ∈ collectIdsF cs := by
  induction cs with
  | nil => simp at h
  | cons d ds ih =>
    rcases List.mem_cons.mp h with h | h
    · subst h
      simp [ID_mem_collectIds]
    · simp [ih h]

theorem children_ID_mem (n : TNode α) (x : Int) (h : x ∈ n.children.map TNode.ID) :
    x ∈ collectIds n := by
  obtain ⟨v, i, cs⟩ := n
  simp only [TNode.children_mk, List.mem_map] at h
  obtain ⟨c, hc, rfl⟩ := h
  simp [mem_collectIdsF_of_mem cs c hc]

/-! ### Unbalanced marker counts are always detected -/

theorem parseLines_unbalanced (dec : Str → Option α) (hdec : ∀ s, (dec s).isSome = true) :
    ∀ (lines : List Str) (acc : List (Option α)) (nc eoc : Nat),
      (∀ l ∈ lines, isEOCLine l = true ∨ isValueShape l = true) →
      eoc ≤ nc →
      ((∃ k, nc + ((lines.take k).countP (fun l => !(isEOCLine l)))
          < eoc + ((lines.take k).countP (fun l => isEOCLine l))) ∨
        eoc + lines.countP (fun l => isEOCLine l)
          ≠ nc + lines.countP (fun l => !(isEOCLine l))) →
      (parseLines dec lines acc nc eoc).1 = some .UnbalancedMarkers := by
  intro lines
  induction lines with
  | nil =>
    intro acc nc eoc hwf hle hviol
    rw [parseLines]
    rcases hviol with ⟨k, hk⟩ | hne
    · simp at hk
      omega
    · simp only [List.countP_nil] at hne
      have : nc ≠ eoc := by omega
      simp [this]
  | cons line rest ih =>
    intro acc nc eoc hwf hle hviol
    have hwfl := hwf line (by simp)
    rw [parseLines]
    cases hEOC : isEOCLine line with
    | true =>
      simp only [hEOC, if_true]
      by_cases hover : eoc + 1 > nc
      · simp [hover]
      · rw [if_neg hover]
        apply ih (acc ++ [none]) nc (eoc + 1) (fun l hl => hwf l (by simp [hl])) (by omega)
        rcases hviol with ⟨k, hk⟩ | hne
        · cases k with
          | zero =>
            simp at hk
            omega
          | succ k' =>
            left
            refine ⟨k', ?_⟩
            simp only [List.take_succ_cons, List.countP_cons, hEOC] at hk
            simp at hk ⊢
            omega
        · right
          simp only [List.countP_cons, hEOC] at hne
          simp at hne ⊢
          omega
    | false =>
      have hshape : isValueShape line = true := by
        rcases hwfl with hcase | hcase
        · rw [hEOC] at hcase
          simp at hcase
        · exact hcase
      simp only [hEOC, Bool.false_eq_true, if_false, hshape, if_true]
      have hdrop : (dropThroughSub (']' :: ':' :: [' ']) line).isSome = true := by
        simp only [isValueShape] at hshape
        simp only [Bool.and_eq_true, decide_eq_true_eq] at hshape
        exact hshape.2
      cases hvp : dropThroughSub (']' :: ':' :: [' ']) line with
      | none =>
        rw [hvp] at hdrop
        simp at hdrop
      | some vp =>
        have hv := hdec vp
        cases hvv : dec vp with
        | none =>
          rw [hvv] at hv
          simp at hv
        | some v =>
          simp only [hvv]
          apply ih (acc ++ [some v]) (nc + 1) eoc (fun l hl => hwf l (by simp [hl])) (by omega)
          rcases hviol with ⟨k, hk⟩ | hne
          · cases k with
            | zero =>
              simp at hk
              omega
            | succ k' =>
              left
              refine ⟨k', ?_⟩
              simp only [List.take_succ_cons, List.countP_cons, hEOC] at hk
              simp at hk ⊢
              omega
          · right
            simp only [List.countP_cons, hEOC] at hne
            simp at hne ⊢
            omega

/-! ### The emitted line at each position of the document -/

theorem serializeLines_spec (enc : α → Str) (lin : List (Option α)) :
    ∀ (k : Nat),
      (serializeLines enc lin k).length = lin.length ∧
      ∀ j, j < lin.length →
        (serializeLines enc lin k).getD j []
          = match lin.getD j none with
            | some v => valueLine (k + (lin.take j).countP (fun x => x.isSome)) (enc v)
            | none => eocLine := by
  induction lin with
  | nil =>
    intro k
    exact ⟨rfl, fun j hj => by simp at hj⟩
  | cons x rest ih =>
    intro k
    match x with
    | some v =>
      rw [serializeLines]
      refine ⟨by simp [(ih (k + 1)).1], ?_⟩
      intro j hj
      cases j with
      | zero => simp
      | succ j' =>
        have hj' : j' < rest.length := by simpa using hj
        have := (ih (k + 1)).2 j' hj'
        simp only [List.getD_cons_succ, List.take_succ_cons, List.countP_cons]
        rw [this]
        cases hx : rest.getD j' none with
        | some w =>
          simp only []
          congr 1
          simp
          omega
        | none => simp
    | none =>
      rw [serializeLines]
      refine ⟨by simp [(ih k).1], ?_⟩
      intro j hj
      cases j with
      | zero => simp
      | succ j' =>
        have hj' : j' < rest.length := by simpa using hj
        have := (ih k).2 j' hj'
        simp only [List.getD_cons_succ, List.take_succ_cons, List.countP_cons]
        rw [this]
        cases hx : rest.getD j' none with
        | some w =>
          simp only []
          congr 1
        | none => simp

/-! ### Consequences of the index invariant -/

theorem contains_eq_true_of_mem (l : List Int) (x : Int) (h : x ∈ l) :
    l.contains x = true := by
  simpa using h

theorem TreeInv_some (t : Tree α) (r : TNode α) (hroot : t.root = some r)
    (hinv : TreeInv t) :
    t.nodeMap.Perm (collectIds r) ∧ (collectIds r).Nodup ∧
      ∀ i ∈ collectIds r, 0 ≤ i ∧ i < t.nextID := by
  simpa [TreeInv, hroot] using hinv

theorem TreeInv_none (t : Tree α) (hroot : t.root = none) (hinv : TreeInv t) :
    t.nodeMap = [] ∧ 0 ≤ t.nextID := by
  simpa [TreeInv, hroot] using hinv

theorem TreeInv_mem_iff (t : Tree α) (hinv : TreeInv t) (i : Int) :
    i ∈ t.nodeMap ↔ ∃ r, t.root = some r ∧ i ∈ collectIds r := by
  cases hroot : t.root with
  | none =>
    rw [(TreeInv_none t hroot hinv).1]
    simp
  | some r =>
    have h3 := TreeInv_some t r hroot hinv
    rw [h3.1.mem_iff]
    constructor
    · intro hi
      exact ⟨r, rfl, hi⟩
    · rintro ⟨r', hr', hi⟩
      obtain rfl : r = r' := Option.some.inj hr'
      exact hi

theorem TreeInv_nodup (t : Tree α) (hinv : TreeInv t) : t.nodeMap.Nodup := by
  cases hroot : t.root with
  | none =>
    rw [(TreeInv_none t hroot hinv).1]
    exact List.nodup_nil
  | some r =>
    have h3 := TreeInv_some t r hroot hinv
    exact h3.1.nodup_iff.mpr h3.2.1

theorem TreeInv_lookup (t : Tree α) (hinv : TreeInv t) (i : Int)
    (hi : i ∈ t.nodeMap) :
    ∃ r m, t.root = some r ∧ findNode i r = some m ∧ m.ID = i := by
  obtain ⟨r, hroot, hir⟩ := (TreeInv_mem_iff t hinv i).mp hi
  have hs := findNode_isSome i r hir
  cases hf : findNode i r with
  | none =>
    rw [hf] at hs
    simp at hs
  | some m =>
    exact ⟨r, m, hroot, hf, (findNode_spec i r m hf).1⟩

theorem TreeInv_fresh (t : Tree α) (hinv : TreeInv t) :
    t.nodeMap.contains t.nextID = false := by
  cases hc : t.nodeMap.contains t.nextID with
  | false => rfl
  | true =>
    have hmem : t.nextID ∈ t.nodeMap := by simpa using hc
    obtain ⟨r, hroot, hir⟩ := (TreeInv_mem_iff t hinv t.nextID).mp hmem
    have := ((TreeInv_some t r hroot hinv).2.2 t.nextID hir).2
    omega

theorem removeNode_erases (t : Tree α) (nid : Int) (m : TNode α) (t' : Tree α)
    (hfind : t.root.bind (findNode nid) = some m)
    (hrem : t.removeNode nid = .ok t') :
    ∀ x ∈ collectIds m, x ∉ t'.nodeMap := by
  obtain ⟨hne, hc⟩ := Tree.removeNode_ok_guards t nid t' hrem
  cases hroot : t.root with
  | none =>
    rw [hroot] at hfind
    simp at hfind
  | some r =>
    rw [hroot] at hfind
    simp only [Option.some_bind] at hfind
    rw [Tree.removeNode_ok t nid r m hroot hne hc hfind] at hrem
    have ht' : t' = ⟨some (removeChildNode nid r).1,
        t.nodeMap.filter (fun k => !((collectIds m).contains k)), t.nextID⟩ :=
      (Except.ok.inj hrem).symm
    intro x hx hx'
    rw [ht'] at hx'
    have hkeep := (List.mem_filter.mp hx').2
    simp only [Bool.not_eq_eq_eq_not, Bool.not_true] at hkeep
    have : x ∈ collectIds m := hx
    have hcx : (collectIds m).contains x = true := contains_eq_true_of_mem _ x this
    rw [hcx] at hkeep
    simp at hkeep

/-! ## The claims -/

/-- C1: for every tree built by a script of public mutations from a fresh
tree, over a payload whose text encoding round-trips losslessly and stays on
one line, `deserialize (serialize t)` parses with no diagnostic and yields
the tree whose root is the source root relabelled in pre-order from id 0:
the same pre-order sequence of values, the same children-count-per-node
structure, and ids exactly `0, 1, …, n-1` in pre-order — a full rebuild with
freshly, densely reassigned ids, not an id-preserving restore. -/
theorem round_trip_rebuild (P : PayloadIface α)
    (hchk : T_compatible_check P = true)
    (hdec : ∀ v, P.dec (P.enc v) = some v) (hnl : ∀ v, '\n' ∉ P.enc v)
    (ops : List (TreeOp α)) (r : TNode α)
    (hr : (applyOps Tree.empty ops).root = some r) :
    deserialize P (Tree.serialize P (applyOps Tree.empty ops))
      = (none, .ok ⟨some (relabelT r 0).1, idRange 0 (sizeN r), (sizeN r : Int)⟩) ∧
    preorderValues (relabelT r 0).1 = preorderValues r ∧
    preorderKidCounts (relabelT r 0).1 = preorderKidCounts r ∧
    collectIds (relabelT r 0).1 = idRange 0 (sizeN r) :=
  ⟨deserialize_serialize P hchk hdec hnl _ r hr,
    (relabelT_spec r 0).2.2.1, (relabelT_spec r 0).2.2.2.1, (relabelT_spec r 0).2.1⟩

/-- C1 (witness): the boolean script `boolOps` allocates ids in insertion
order 0,1,2,3 (pre-order id sequence 0,1,3,2) and its round trip returns the
pre-order relabelling. -/
theorem round_trip_rebuild_check :
    deserialize boolPayload (Tree.serialize boolPayload (applyOps Tree.empty boolOps))
      = (none, .ok ⟨some (relabelT boolOpsRoot 0).1, idRange 0 (sizeN boolOpsRoot),
          (sizeN boolOpsRoot : Int)⟩) ∧
    preorderValues (relabelT boolOpsRoot 0).1 = preorderValues boolOpsRoot ∧
    preorderKidCounts (relabelT boolOpsRoot 0).1 = preorderKidCounts boolOpsRoot ∧
    collectIds (relabelT boolOpsRoot 0).1 = idRange 0 (sizeN boolOpsRoot) :=
  round_trip_rebuild boolPayload rfl (by decide) (by decide) boolOps boolOpsRoot rfl

/-- C2 (counterexample): deserializing the unbalanced scenario document
`[0]: A\n[X]\n[X]\n` does not fail to the caller: the `catch` block of
`Tree::deserialize` only logs the diagnostic to `cerr`, and the function
still returns the delinearization of the value lines parsed before the
violation — here the single-node tree `A`. -/
theorem unbalanced_doc_still_yields_tree :
    deserialize strPayload exampleDoc
      = (some .UnbalancedMarkers, .ok ⟨some (.mk ['A'] 0 []), [0], 1⟩) ∧
    ∀ e, (deserialize strPayload exampleDoc).2 ≠ .error e := by
  refine ⟨rfl, fun e h => ?_⟩
  rw [show (deserialize strPayload exampleDoc).2
      = Except.ok (⟨some (.mk ['A'] 0 []), [0], 1⟩ : Tree Str) from rfl] at h
  exact Except.noConfusion h

/-- C2 (amended): on a document of well-shaped lines over a decoder that
never fails (as for `std::string`), a prefix whose end-marker count exceeds
its value-line count, or totals that differ at end of input, make the parse
loop raise `UnbalancedMarkers` — but the error is only logged as the
diagnostic component; the caller still receives a delinearized tree. -/
theorem deserialize_unbalanced_diagnostic (P : PayloadIface α)
    (hdec : ∀ u, (P.dec u).isSome = true) (s : Str)
    (hwf : ∀ l ∈ splitLines s, isEOCLine l = true ∨ isValueShape l = true)
    (hviol : (∃ k, ((splitLines s).take k).countP (fun l => !(isEOCLine l))
          < ((splitLines s).take k).countP (fun l => isEOCLine l)) ∨
      (splitLines s).countP (fun l => isEOCLine l)
        ≠ (splitLines s).countP (fun l => !(isEOCLine l))) :
    (deserialize P s).1 = some .UnbalancedMarkers := by
  have h := parseLines_unbalanced P.dec hdec (splitLines s) [] 0 0 hwf (le_refl 0) ?_
  · exact h
  · rcases hviol with ⟨k, hk⟩ | hne
    · exact Or.inl ⟨k, by omega⟩
    · exact Or.inr (by omega)

/-- C2 (witness of the amendment): the scenario document logs
`UnbalancedMarkers` as its diagnostic. -/
theorem deserialize_unbalanced_diagnostic_check :
    (deserialize strPayload exampleDoc).1 = some .UnbalancedMarkers :=
  deserialize_unbalanced_diagnostic strPayload (fun u => rfl) exampleDoc
    (by decide) (Or.inl ⟨3, by decide⟩)

/-- C3: after any script of `set_root` / `append_child` / `remove_subtree`
operations from a fresh tree, the invariant holds; the index holds exactly
the ids of the nodes reachable from the root; the ids are pairwise distinct;
each id in the index dereferences to a reachable node carrying that very id;
and a successful removal erases every id of the removed subtree from the
index. -/
theorem index_invariant_maintained (ops : List (TreeOp α)) :
    TreeInv (applyOps Tree.empty ops) ∧
    (∀ i, i ∈ (applyOps Tree.empty ops).nodeMap ↔
      ∃ r, (applyOps Tree.empty ops).root = some r ∧ i ∈ collectIds r) ∧
    ((applyOps Tree.empty ops).nodeMap.Nodup) ∧
    (∀ i ∈ (applyOps Tree.empty ops).nodeMap, ∃ r m,
      (applyOps Tree.empty ops).root = some r ∧ findNode i r = some m ∧ m.ID = i) ∧
    (∀ nid m t', ((applyOps Tree.empty ops).root.bind (findNode nid)) = some m →
      (applyOps Tree.empty ops).removeNode nid = .ok t' →
      ∀ x ∈ collectIds m, x ∉ t'.nodeMap) := by
  have hinv := TreeInv_applyOps ops Tree.empty TreeInv_empty
  exact ⟨hinv, fun i => TreeInv_mem_iff _ hinv i, TreeInv_nodup _ hinv,
    fun i hi => TreeInv_lookup _ hinv i hi,
    fun nid m t' hf hr => removeNode_erases _ nid m t' hf hr⟩

/-- C5: `linearize` produces the pre-order flattening in which each real
node contributes exactly one value entry and exactly one end-of-children
marker (`none`): a node's block is its value, the blocks of its children in
order, then its own marker — so the marker lies strictly after all of its
descendants' markers and before every entry of its later siblings, in no
prefix do markers outnumber value entries, and a tree of `n` nodes
linearizes to exactly `2 * n` entries. -/
theorem linearize_preorder_struct (t : Tree α) (r : TNode α)
    (hr : t.root = some r) :
    t.linearize = linTree r ∧
    (∀ (v : α) (i : Int) (cs : List (TNode α)),
      linTree (.mk v i cs) = some v :: (linForest cs ++ [none])) ∧
    (∀ (c : TNode α) (cs : List (TNode α)),
      linForest (c :: cs) = linTree c ++ linForest cs) ∧
    (linTree r).countP (fun x => x.isSome) = sizeN r ∧
    (linTree r).countP (fun x => x.isNone) = sizeN r ∧
    (∀ l1 l2 : List (Option α), linTree r = l1 ++ l2 →
      l1.countP (fun x => x.isNone) ≤ l1.countP (fun x => x.isSome)) ∧
    (linTree r).length = 2 * sizeN r := by
  have hc := linTree_counts r
  exact ⟨Tree.linearize_of_root t r hr, fun v i cs => linTree_mk v i cs,
    fun c cs => linForest_cons c cs, hc.1, hc.2.1, linTree_balance r, hc.2.2⟩

/-- C5 (witness): the scenario tree's linearization, concretely. -/
theorem linearize_preorder_struct_check :
    exampleTree.linearize = linTree exampleRoot ∧
    (∀ (v : Str) (i : Int) (cs : List (TNode Str)),
      linTree (.mk v i cs) = some v :: (linForest cs ++ [none])) ∧
    (∀ (c : TNode Str) (cs : List (TNode Str)),
      linForest (c :: cs) = linTree c ++ linForest cs) ∧
    (linTree exampleRoot).countP (fun x => x.isSome) = sizeN exampleRoot ∧
    (linTree exampleRoot).countP (fun x => x.isNone) = sizeN exampleRoot ∧
    (∀ l1 l2 : List (Option Str), linTree exampleRoot = l1 ++ l2 →
      l1.countP (fun x => x.isNone) ≤ l1.countP (fun x => x.isSome)) ∧
    (linTree exampleRoot).length = 2 * sizeN exampleRoot :=
  linearize_preorder_struct exampleTree exampleRoot rfl

/-- C6: `serialize` emits one line per linearized entry in traversal order:
the j-th line is `[k]: ` followed by the payload's encoding when the j-th
entry is the k-th value entry — `k` a cosmetic 0-based counter over value
entries only, not the node's id — and exactly `[X]` when it is a marker; on
the 3-level scenario tree the output is precisely the twelve lines
`[0]: A`, `[1]: B`, `[2]: E`, `[X]`, `[3]: F`, `[X]`, `[X]`, `[4]: C`,
`[X]`, `[5]: D`, `[X]`, `[X]`: six value lines and six markers in the order
A,B,E,X,F,X,X,C,X,D,X,X. -/
theorem serialize_line_format :
    (∀ (β : Type) (P : PayloadIface β) (t : Tree β) (r : TNode β),
      t.root = some r → (∀ v, '\n' ∉ P.enc v) →
      splitLines (Tree.serialize P t) = serializeLines P.enc (linTree r) 0 ∧
      (serializeLines P.enc (linTree r) 0).length = (linTree r).length ∧
      ∀ j, j < (linTree r).length →
        (serializeLines P.enc (linTree r) 0).getD j []
          = match (linTree r).getD j none with
            | some v =>
              valueLine (((linTree r).take j).countP (fun x => x.isSome)) (P.enc v)
            | none => eocLine) ∧
    splitLines (Tree.serialize strPayload exampleTree)
      = [valueLine 0 ['A'], valueLine 1 ['B'], valueLine 2 ['E'], eocLine,
          valueLine 3 ['F'], eocLine, eocLine, valueLine 4 ['C'], eocLine,
          valueLine 5 ['D'], eocLine, eocLine] ∧
    (splitLines (Tree.serialize strPayload exampleTree)).countP
        (fun l => isEOCLine l) = 6 ∧
    (splitLines (Tree.serialize strPayload exampleTree)).countP
        (fun l => !(isEOCLine l)) = 6 := by
  refine ⟨?_, ?_, ?_, ?_⟩
  · intro β P t r hr hnl
    have hsplit : splitLines (Tree.serialize P t)
        = serializeLines P.enc (linTree r) 0 := by
      rw [Tree.serialize, Tree.linearize_of_root t r hr,
        splitLines_joinLines _ (serializeLines_no_newline P.enc hnl (linTree r) 0)]
    have hspec := serializeLines_spec P.enc (linTree r) 0
    refine ⟨hsplit, hspec.1, ?_⟩
    intro j hj
    rw [hspec.2 j hj]
    cases hx : (linTree r).getD j none with
    | some w => simp
    | none => rfl
  · rw [Tree.serialize, Tree.linearize_of_root exampleTree exampleRoot rfl]
    rfl
  · rw [Tree.serialize, Tree.linearize_of_root exampleTree exampleRoot rfl]
    rfl
  · rw [Tree.serialize, Tree.linearize_of_root exampleTree exampleRoot rfl]
    rfl

/-- C8: every `Tree` constructor runs the compatibility check, which encodes
a default-constructed payload, decodes it back (a failed extraction leaves
the default value) and compares with `operator==`; construction fails with
`IncompatiblePayloadType` — yielding no tree — exactly when that comparison
is false. -/
theorem construction_check (P : PayloadIface α) (v : α) :
    T_compatible_check P
      = P.eqb P.defaultVal ((P.dec (P.enc P.defaultVal)).getD P.defaultVal) ∧
    (Tree.mkNew P = .error .IncompatiblePayloadType
      ↔ P.eqb P.defaultVal ((P.dec (P.enc P.defaultVal)).getD P.defaultVal) = false) ∧
    (Tree.mkWithValue P v = .error .IncompatiblePayloadType
      ↔ P.eqb P.defaultVal ((P.dec (P.enc P.defaultVal)).getD P.defaultVal) = false) ∧
    (∀ t, Tree.mkNew P = .ok t → T_compatible_check P = true) ∧
    (∀ t, Tree.mkWithValue P v = .ok t → T_compatible_check P = true) := by
  have hdef : T_compatible_check P
      = P.eqb P.defaultVal ((P.dec (P.enc P.defaultVal)).getD P.defaultVal) := rfl
  refine ⟨hdef, ?_, ?_, ?_, ?_⟩
  · rw [← hdef]
    unfold Tree.mkNew
    cases hchk : T_compatible_check P with
    | true => simp
    | false => simp
  · rw [← hdef]
    unfold Tree.mkWithValue
    cases hchk : T_compatible_check P with
    | true =>
      have hset : (Tree.empty : Tree α).setRoot v
          = .ok (0, ⟨some (.mk v 0 []), [0], 1⟩) := rfl
      rw [if_pos rfl, hset]
      simp
    | false => simp
  · intro t h
    unfold Tree.mkNew at h
    cases hchk : T_compatible_check P with
    | true => rfl
    | false =>
      rw [hchk] at h
      simp at h
  · intro t h
    unfold Tree.mkWithValue at h
    cases hchk : T_compatible_check P with
    | true => rfl
    | false =>
      rw [hchk] at h
      simp at h

/-- C9: on a tree with no root, `remove_subtree` applied to the sentinel
`-1` that `root_id` returns for an empty tree fails with `CannotRemoveRoot`,
not `NodeNotFound`, because the root-id comparison is made before the index
lookup. -/
theorem remove_on_empty_sentinel (t : Tree α) (h : t.root = none) :
    t.getRootID = -1 ∧
    t.removeNode (-1) = .error .CannotRemoveRoot ∧
    t.removeNode t.getRootID = .error .CannotRemoveRoot ∧
    TreeError.CannotRemoveRoot ≠ TreeError.NodeNotFound := by
  have hid := Tree.getRootID_of_none t h
  exact ⟨hid, Tree.removeNode_root_err t (-1) (by rw [hid]),
    Tree.removeNode_root_err t t.getRootID rfl, by decide⟩

/-- C9 (witness): the fresh empty tree, concretely. -/
theorem remove_on_empty_sentinel_check :
    (Tree.empty : Tree Str).getRootID = -1 ∧
    (Tree.empty : Tree Str).removeNode (-1) = .error .CannotRemoveRoot ∧
    (Tree.empty : Tree Str).removeNode (Tree.empty : Tree Str).getRootID
      = .error .CannotRemoveRoot ∧
    TreeError.CannotRemoveRoot ≠ TreeError.NodeNotFound :=
  remove_on_empty_sentinel Tree.empty rfl

/-- C10: the subscript accessor `operator[]` and `getValue` are the same
function (the source repeats the body verbatim): they agree on every id, and
both fail with `NodeNotFound` on an id absent from the index. -/
theorem subscript_getValue_agree (t : Tree α) (nid : Int) :
    t.subscript nid = t.getValue nid ∧
    (t.nodeMap.contains nid = false →
      t.subscript nid = .error .NodeNotFound ∧
      t.getValue nid = .error .NodeNotFound) ∧
    (∀ w, t.getValue nid = .ok w → t.subscript nid = .ok w) := by
  have hsame : t.subscript nid = t.getValue nid := rfl
  refine ⟨hsame, fun hc => ?_, fun w hw => by rw [hsame, hw]⟩
  have := Tree.getValue_not_found t nid hc
  exact ⟨by rw [hsame, this], this⟩

theorem contains_eq_false_of_not_mem (l : List Int) (x : Int) (h : x ∉ l) :
    l.contains x = false := by
  cases hc : l.contains x with
  | false => rfl
  | true => exact absurd (by simpa using hc) h

/-- C4: a successful `remove_subtree(node_id)` finds the node, erases the id
of every node of its subtree from the index — so subsequent `value` /
`children_ids` lookups on any of those ids fail with `NodeNotFound` — and no
child list of the resulting tree still holds the removed id; a failing call
(`CannotRemoveRoot` or `NodeNotFound`) leaves the tree completely unchanged,
never a partial state. -/
theorem remove_subtree_complete (t : Tree α) (hinv : TreeInv t) (nid : Int) :
    (∀ t', t.removeNode nid = .ok t' →
      ∃ r m, t.root = some r ∧ findNode nid r = some m ∧ m.ID = nid ∧
        (∀ x ∈ collectIds m,
          t'.getValue x = .error .NodeNotFound ∧
          t'.getChildrenIDs x = .error .NodeNotFound) ∧
        (∀ q l, t'.getChildrenIDs q = .ok l → nid ∉ l)) ∧
    (∀ e, t.removeNode nid = .error e → applyOp t (.removeSubtreeOp nid) = t) := by
  constructor
  · intro t' hok
    obtain ⟨hne, hc⟩ := Tree.removeNode_ok_guards t nid t' hok
    have hmem : nid ∈ t.nodeMap := by simpa using hc
    obtain ⟨r, m, hroot, hfind, hid⟩ := TreeInv_lookup t hinv nid hmem
    have h3 := TreeInv_some t r hroot hinv
    rw [Tree.removeNode_ok t nid r m hroot hne hc hfind] at hok
    have ht' : t' = ⟨some (removeChildNode nid r).1,
        t.nodeMap.filter (fun k => !((collectIds m).contains k)), t.nextID⟩ :=
      (Except.ok.inj hok).symm
    refine ⟨r, m, hroot, hfind, hid, ?_, ?_⟩
    · intro x hx
      have hx' : x ∉ t'.nodeMap := by
        rw [ht']
        intro hxf
        have hkeep := (List.mem_filter.mp hxf).2
        rw [contains_eq_true_of_mem _ x hx] at hkeep
        simp at hkeep
      have hcx := contains_eq_false_of_not_mem _ x hx'
      exact ⟨Tree.getValue_not_found t' x hcx,
        Tree.getChildrenIDs_not_found t' x hcx⟩
    · intro q l hql hmem2
      obtain ⟨rt, n, hrt, hfq, hl⟩ := Tree.getChildrenIDs_ok_inv t' q l hql
      have hrt' : rt = (removeChildNode nid r).1 := by
        rw [ht'] at hrt
        exact (Option.some.inj hrt).symm
      have hne' : r.ID ≠ nid := by
        intro he
        exact hne (by rw [Tree.getRootID_of_root t r hroot, he])
      have hrem := removeChildNode_ids nid r m h3.2.1 hfind hne'
      have h1 : nid ∈ n.children.map TNode.ID := hl ▸ hmem2
      have h2 : nid ∈ collectIds rt := (findNode_spec q rt n hfq).2 nid
        (children_ID_mem n nid h1)
      rw [hrt', hrem.2] at h2
      have hkeep := (List.mem_filter.mp h2).2
      rw [contains_eq_true_of_mem _ nid (hid ▸ ID_mem_collectIds m)] at hkeep
      simp at hkeep
  · intro e he
    simp [applyOp, he]

/-- C4 (witness): removing node 1 (value `B`, subtree ids 1, 4, 5) from the
scenario tree, concretely. -/
theorem remove_subtree_complete_check :
    (∀ t', exampleTree.removeNode 1 = .ok t' →
      ∃ r m, exampleTree.root = some r ∧ findNode 1 r = some m ∧ m.ID = 1 ∧
        (∀ x ∈ collectIds m,
          t'.getValue x = .error .NodeNotFound ∧
          t'.getChildrenIDs x = .error .NodeNotFound) ∧
        (∀ q l, t'.getChildrenIDs q = .ok l → (1 : Int) ∉ l)) ∧
    (∀ e, exampleTree.removeNode 1 = .error e →
      applyOp exampleTree (.removeSubtreeOp 1) = exampleTree) :=
  remove_subtree_complete exampleTree (by decide) 1

/-- C7: `append_child(parent_id, value)` fails with `NodeNotFound` when
`parent_id` is absent from the index, leaving the tree unchanged; otherwise
it returns the next fresh id, registers exactly that id at the end of the
index, bumps the counter by one, appends exactly one new node carrying
`value` at the end of the parent's child sequence, changes no existing
node's value — the parent's included — and changes no node's child list
other than the parent's, which gains exactly the new id at its end. -/
theorem append_child_frame (t : Tree α) (hinv : TreeInv t) (pid : Int) (v : α) :
    (t.nodeMap.contains pid = false →
      t.appendNode pid v = .error .NodeNotFound ∧
      applyOp t (.appendChildOp pid v) = t) ∧
    (t.nodeMap.contains pid = true →
      ∃ r t', t.root = some r ∧
        t.appendNode pid v = .ok (t.nextID, t') ∧
        t'.nodeMap = t.nodeMap ++ [t.nextID] ∧
        t'.nextID = t.nextID + 1 ∧
        (∀ q, q ∈ t.nodeMap → t'.getValue q = t.getValue q) ∧
        (∀ q, q ∈ t.nodeMap → q ≠ pid →
          t'.getChildrenIDs q = t.getChildrenIDs q) ∧
        (∃ l, t.getChildrenIDs pid = .ok l ∧
          t'.getChildrenIDs pid = .ok (l ++ [t.nextID])) ∧
        t'.getValue t.nextID = .ok v) := by
  constructor
  · intro hc
    have herr := Tree.appendNode_not_found t pid v hc
    exact ⟨herr, by simp [applyOp, herr]⟩
  · intro hc
    have hmem : pid ∈ t.nodeMap := by simpa using hc
    cases hroot : t.root with
    | none =>
      exfalso
      rw [(TreeInv_none t hroot hinv).1] at hmem
      simp at hmem
    | some r =>
      have h3 := TreeInv_some t r hroot hinv
      have hfreshb := TreeInv_fresh t hinv
      have happ := Tree.appendNode_eq t pid v hc hfreshb
      have hdisj : ∀ x ∈ collectIds (TNode.mk v t.nextID ([] : List (TNode α))),
          x ∉ collectIds r := by
        intro x hx hxr
        have hb := (h3.2.2 x hxr).2
        simp only [collectIds_mk, collectIdsF_nil, List.mem_singleton] at hx
        omega
      have hpidr : pid ∈ collectIds r := h3.1.mem_iff.mp hmem
      refine ⟨r, ⟨some ((insertChildAt pid (TNode.mk v t.nextID []) r).1),
        t.nodeMap ++ [t.nextID], t.nextID + 1⟩, rfl, ?_, rfl, rfl, ?_, ?_, ?_, ?_⟩
      · rw [happ, hroot]
        rfl
      · intro q hq
        have hqr : q ∈ collectIds r := h3.1.mem_iff.mp hq
        have hframe := findNode_insert_frame pid q (TNode.mk v t.nextID []) r
          h3.2.1 hdisj hqr
        have hqs := findNode_isSome q r hqr
        cases hfq : findNode q r with
        | none =>
          rw [hfq] at hqs
          simp at hqs
        | some n =>
          have hval := hframe.1
          rw [hfq] at hval
          cases hfq' : findNode q ((insertChildAt pid (TNode.mk v t.nextID []) r).1) with
          | none =>
            rw [hfq'] at hval
            simp at hval
          | some n' =>
            rw [hfq'] at hval
            have hvv : n'.value = n.value := by simpa using hval
            have hqc' : (t.nodeMap ++ [t.nextID]).contains q = true :=
              contains_eq_true_of_mem _ q (by simp [hq])
            have e1 := Tree.getValue_ok (⟨some ((insertChildAt pid
                (TNode.mk v t.nextID []) r).1), t.nodeMap ++ [t.nextID],
                t.nextID + 1⟩ : Tree α) q
              ((insertChildAt pid (TNode.mk v t.nextID []) r).1) n' rfl hqc' hfq'
            have e2 := Tree.getValue_ok t q r n hroot
              (contains_eq_true_of_mem _ q hq) hfq
            rw [e1, e2, hvv]
      · intro q hq hqpid
        have hqr : q ∈ collectIds r := h3.1.mem_iff.mp hq
        have hframe := findNode_insert_frame pid q (TNode.mk v t.nextID []) r
          h3.2.1 hdisj hqr
        have hqs := findNode_isSome q r hqr
        cases hfq : findNode q r with
        | none =>
          rw [hfq] at hqs
          simp at hqs
        | some n =>
          have hval := hframe.1
          rw [hfq] at hval
          cases hfq' : findNode q ((insertChildAt pid (TNode.mk v t.nextID []) r).1) with
          | none =>
            rw [hfq'] at hval
            simp at hval
          | some n' =>
            have hch := hframe.2
            rw [if_neg hqpid, hfq, hfq'] at hch
            have hcc : n'.children.map TNode.ID = n.children.map TNode.ID := by
              simpa using hch
            have hqc' : (t.nodeMap ++ [t.nextID]).contains q = true :=
              contains_eq_true_of_mem _ q (by simp [hq])
            have e3 := Tree.getChildrenIDs_ok (⟨some ((insertChildAt pid
                (TNode.mk v t.nextID []) r).1), t.nodeMap ++ [t.nextID],
                t.nextID + 1⟩ : Tree α) q
              ((insertChildAt pid (TNode.mk v t.nextID []) r).1) n' rfl hqc' hfq'
            have e4 := Tree.getChildrenIDs_ok t q r n hroot
              (contains_eq_true_of_mem _ q hq) hfq
            rw [e3, e4, hcc]
      · have hps := findNode_isSome pid r hpidr
        cases hfp : findNode pid r with
        | none =>
          rw [hfp] at hps
          simp at hps
        | some m =>
          have hframe := (findNode_insert_frame pid pid (TNode.mk v t.nextID []) r
            h3.2.1 hdisj hpidr).2
          rw [if_pos rfl, hfp] at hframe
          cases hfp' : findNode pid ((insertChildAt pid (TNode.mk v t.nextID []) r).1) with
          | none =>
            rw [hfp'] at hframe
            simp at hframe
          | some m' =>
            rw [hfp'] at hframe
            have hcc : m'.children.map TNode.ID
                = m.children.map TNode.ID ++ [t.nextID] := by
              simpa using hframe
            have hpc' : (t.nodeMap ++ [t.nextID]).contains pid = true :=
              contains_eq_true_of_mem _ pid (by simp [hmem])
            refine ⟨m.children.map TNode.ID,
              Tree.getChildrenIDs_ok t pid r m hroot hc hfp, ?_⟩
            have e1 := Tree.getChildrenIDs_ok (⟨some ((insertChildAt pid
                (TNode.mk v t.nextID []) r).1), t.nodeMap ++ [t.nextID],
                t.nextID + 1⟩ : Tree α) pid
              ((insertChildAt pid (TNode.mk v t.nextID []) r).1) m' rfl hpc' hfp'
            rw [e1, hcc]
      · have hfn := findNode_insert_new pid (TNode.mk v t.nextID []) r hdisj hpidr
        have hnc' : (t.nodeMap ++ [t.nextID]).contains t.nextID = true :=
          contains_eq_true_of_mem _ _ (by simp)
        have e1 := Tree.getValue_ok (⟨some ((insertChildAt pid
            (TNode.mk v t.nextID []) r).1), t.nodeMap ++ [t.nextID],
            t.nextID + 1⟩ : Tree α) t.nextID
          ((insertChildAt pid (TNode.mk v t.nextID []) r).1)
          (TNode.mk v t.nextID []) rfl hnc' hfn
        rw [e1]
        rfl

/-- C7 (witness): appending `G` under node 1 of the scenario tree,
concretely. -/
theorem append_child_frame_check :
    (exampleTree.nodeMap.contains 1 = false →
      exampleTree.appendNode 1 ['G'] = .error .NodeNotFound ∧
      applyOp exampleTree (.appendChildOp 1 ['G']) = exampleTree) ∧
    (exampleTree.nodeMap.contains 1 = true →
      ∃ r t', exampleTree.root = some r ∧
        exampleTree.appendNode 1 ['G'] = .ok (exampleTree.nextID, t') ∧
        t'.nodeMap = exampleTree.nodeMap ++ [exampleTree.nextID] ∧
        t'.nextID = exampleTree.nextID + 1 ∧
        (∀ q, q ∈ exampleTree.nodeMap →
          t'.getValue q = exampleTree.getValue q) ∧
        (∀ q, q ∈ exampleTree.nodeMap → q ≠ 1 →
          t'.getChildrenIDs q = exampleTree.getChildrenIDs q) ∧
        (∃ l, exampleTree.getChildrenIDs 1 = .ok l ∧
          t'.getChildrenIDs 1 = .ok (l ++ [exampleTree.nextID])) ∧
        t'.getValue exampleTree.nextID = .ok ['G']) :=
  append_child_frame exampleTree (by decide) 1 ['G']

end TextAdventure
